import Mathlib

/-!
# CPU scheduling simulation (`parta.c`, `parta_main.c`)

A shallow embedding of the process table and of the two schedulers of the
repository, first-come-first-served and round-robin, followed by the
properties of the specification that were checked against it.

Modelling conventions.

* A C `int` is an unbounded integer (`Int`): the properties are stated for
  runs in which no arithmetic overflows.  A run of `rr_run` with a quantum
  below 0 cannot avoid overflow; for it the definitions whose name ends in
  `32` hold every arithmetic result in a 32-bit `int`.
* The pair `struct pcb* procs, int plen` is a `List Pcb`; `plen` is the length
  of the list.
* `procs[i]` is `rd procs i`, and a store to a field of `procs[i]` is
  `wr procs i _`.  An index outside `[0, plen)` is undefined behaviour in C;
  here such a read yields `Pcb.zero` and such a store is dropped.  Every
  property below is stated for indices inside the table.
* A `for (int i = 0; i < plen; i++)` loop is a left fold of its body over
  `List.range plen`.
* The `while (1)` loop of `rr_run` is iterated with fuel: `none` means the
  loop has not reached its `break` within the given number of iterations.
-/

namespace Parta

/-- Modelled from the spec: `struct pcb` is declared in `parta.h`, which is
not among the sources.  The three `int` fields are the ones the code reads
and writes: the identity, the CPU time still owed, the accumulated wait. -/
structure Pcb where
  pid : Int
  burst_left : Int
  wait : Int
deriving DecidableEq

/-- The record read at an index outside the table. -/
def Pcb.zero : Pcb := ⟨0, 0, 0⟩

/-- The read `procs[i]`. -/
def rd (procs : List Pcb) (i : Int) : Pcb :=
  if 0 ≤ i then procs.getD i.toNat Pcb.zero else Pcb.zero

/-- The store `procs[i] = p`. -/
def wr (procs : List Pcb) (i : Int) (p : Pcb) : List Pcb :=
  if 0 ≤ i then procs.set i.toNat p else procs

/-- The success path of `init_procs(bursts, blen)`: slot `i` receives
`pid = i`, `burst_left = bursts[i]`, `wait = 0`.  (The `malloc` failure path,
which returns `NULL`, is not part of the model.) -/
def init_procs (bursts : List Int) : List Pcb :=
  (List.range bursts.length).map fun (i : Nat) => ⟨(i : Int), bursts.getD i 0, 0⟩

/-- The body of the wait loop of `run_proc` at counter `i`. -/
def run_proc_body (current amount : Int) (procs : List Pcb) (i : Nat) : List Pcb :=
  if (i : Int) ≠ current ∧ (rd procs i).burst_left > 0 then
    wr procs i { rd procs i with wait := (rd procs i).wait + amount }
  else procs

/-- The function `run_proc(procs, plen, current, amount)`, on calls in which
`burst_left - amount` and `wait + amount` fit an `int`; `run_proc32` is the
function with 32-bit results. -/
def run_proc (procs : List Pcb) (current amount : Int) : List Pcb :=
  if (rd procs current).burst_left > 0 then
    let procs1 := wr procs current
      { rd procs current with burst_left := (rd procs current).burst_left - amount }
    let procs2 :=
      if (rd procs1 current).burst_left < 0 then
        wr procs1 current { rd procs1 current with burst_left := 0 }
      else procs1
    (List.range procs.length).foldl (run_proc_body current amount) procs2
  else procs

/-- The loop body of `fcfs_run` at counter `i`, on the pair
`(procs, total_time)`. -/
def fcfs_body (s : List Pcb × Int) (i : Nat) : List Pcb × Int :=
  if (rd s.1 i).burst_left > 0 then
    let procs1 := wr s.1 i { rd s.1 i with wait := s.2 }
    let total_time := s.2 + (rd procs1 i).burst_left
    (wr procs1 i { rd procs1 i with burst_left := 0 }, total_time)
  else s

/-- The function `fcfs_run(procs, plen)`: the table after the call and the
returned total time. -/
def fcfs_run (procs : List Pcb) : List Pcb × Int :=
  (List.range procs.length).foldl fcfs_body (procs, 0)

/-- The loop of `rr_next` from counter `i`, with `k` iterations left.  The
`%` of C truncates towards zero, which is `Int.tmod`. -/
def rr_next_loop (current : Int) (procs : List Pcb) : Nat → Nat → Int
  | 0, _ => -1
  | k + 1, i =>
    let next := Int.tmod (current + (i : Int)) (procs.length : Int)
    if (rd procs next).burst_left > 0 then next
    else rr_next_loop current procs k (i + 1)

/-- The function `rr_next(current, procs, plen)`: the counter runs from `1`
to `plen`. -/
def rr_next (current : Int) (procs : List Pcb) : Int :=
  rr_next_loop current procs procs.length 1

/-- The variables of `rr_run` that live across iterations of its loop. -/
structure RRState where
  procs : List Pcb
  current : Int
  total_time : Int
deriving DecidableEq

/-- The value of the local `run_time` of `rr_run`:
`(burst_left > quantum) ? quantum : burst_left`. -/
def run_time (quantum burst_left : Int) : Int :=
  if burst_left > quantum then quantum else burst_left

/-- One iteration of the `while (1)` loop of `rr_run`; `none` is the
`break`. -/
def rr_step (quantum : Int) (s : RRState) : Option RRState :=
  let current := rr_next s.current s.procs
  if current = -1 then none
  else
    let rt := run_time quantum (rd s.procs current).burst_left
    some ⟨run_proc s.procs current rt, current, s.total_time + rt⟩

/-- The loop of `rr_run`, at most `fuel` iterations: the table and the total
time at the `break`, or `none` when the `break` is not reached. -/
def rr_loop (quantum : Int) : Nat → RRState → Option (List Pcb × Int)
  | 0, _ => none
  | fuel + 1, s =>
    match rr_step quantum s with
    | none => some (s.procs, s.total_time)
    | some s' => rr_loop quantum fuel s'

/-- The function `rr_run(procs, plen, quantum)`, which enters its loop with
`total_time = 0` and `current = 0`. -/
def rr_run (fuel : Nat) (procs : List Pcb) (quantum : Int) : Option (List Pcb × Int) :=
  rr_loop quantum fuel ⟨procs, 0, 0⟩

/-- The ticks of `rr_run` in order, each as (selected position, run time):
one entry per loop iteration that does not `break`. -/
def rr_ticks (quantum : Int) : Nat → RRState → List (Int × Int)
  | 0, _ => []
  | fuel + 1, s =>
    match rr_step quantum s with
    | none => []
    | some s' => (s'.current, s'.total_time - s.total_time) :: rr_ticks quantum fuel s'

/-- The digits loop of `atoi`: accumulate decimal digits, stop at the first
character that is not a digit. -/
def atoi_digits (acc : Int) : List Char → Int
  | [] => acc
  | c :: cs =>
    if c.isDigit then atoi_digits (acc * 10 + ((c.toNat : Int) - 48)) cs else acc

/-- The C library predicate `isspace` in the "C" locale: the space and the
control characters 9 to 13. -/
def isspace (c : Char) : Bool :=
  c.toNat = 32 || (9 ≤ c.toNat && c.toNat ≤ 13)

/-- The C library function `atoi` on values that fit an `int`: leading white
space is skipped, an optional sign is read, then the decimal digits. -/
def atoi (s : String) : Int :=
  match s.toList.dropWhile isspace with
  | '-' :: r => - atoi_digits 0 r
  | '+' :: r => atoi_digits 0 r
  | r => atoi_digits 0 r

/-- What an invocation of `main` produces: exit status 1 after an error
message, or exit status 0 after printing the value of `avg_wait_time`. -/
inductive MainResult where
  | error : MainResult
  | average : Rat → MainResult
deriving DecidableEq

/-- The function `main(argc, argv)` with `argc = argv.length`.  The value
printed by `"Average wait time: %.2f"` is kept as an exact rational; `none`
means that the call of `rr_run` has not returned within `fuel` iterations. -/
def main (fuel : Nat) (argv : List String) : Option MainResult :=
  if argv.length < 3 then some MainResult.error
  else
    let algorithm := argv.getD 1 ""
    if algorithm = "fcfs" then
      let num_bursts := argv.length - 2
      let bursts := (List.range num_bursts).map fun (i : Nat) => atoi (argv.getD (i + 2) "")
      let procs := init_procs bursts
      let total_wait_time := (fcfs_run procs).2
      some (MainResult.average ((total_wait_time : Rat) / (num_bursts : Rat)))
    else if algorithm = "rr" then
      if argv.length < 4 then some MainResult.error
      else
        let quantum := atoi (argv.getD 2 "")
        let num_bursts := argv.length - 3
        let bursts := (List.range num_bursts).map fun (i : Nat) => atoi (argv.getD (i + 3) "")
        let procs := init_procs bursts
        match rr_run fuel procs quantum with
        | none => none
        | some r => some (MainResult.average ((r.2 : Rat) / (num_bursts : Rat)))
    else some MainResult.error

/-! ## Auxiliary definitions -/

/-- The clock of `fcfs_run` when its counter reaches `k`: the bursts of the
records before position `k` that the loop does not skip. -/
def elapsedBefore (procs : List Pcb) (k : Nat) : Int :=
  ((procs.take k).map fun p => if p.burst_left > 0 then p.burst_left else 0).sum

/-- The loop of `fcfs_run` read off the list: entered with clock `t`, it
leaves the table `(fcfs_list t procs).1` and the clock `(fcfs_list t procs).2`. -/
def fcfs_list (t : Int) : List Pcb → List Pcb × Int
  | [] => ([], t)
  | p :: ps =>
    if p.burst_left > 0 then
      (⟨p.pid, 0, t⟩ :: (fcfs_list (t + p.burst_left) ps).1, (fcfs_list (t + p.burst_left) ps).2)
    else (p :: (fcfs_list t ps).1, (fcfs_list t ps).2)

/-- The wait loop of `run_proc` read off the list, for the part of the table
that starts at position `k`. -/
def creditWait (current amount : Int) (k : Nat) : List Pcb → List Pcb
  | [] => []
  | p :: ps =>
    (if (k : Int) ≠ current ∧ p.burst_left > 0 then { p with wait := p.wait + amount } else p)
      :: creditWait current amount (k + 1) ps

/-- Total CPU time still owed by the records of a table. -/
def remaining (procs : List Pcb) : Int := (procs.map Pcb.burst_left).sum

/-- A state of the loop of `rr_run` on a non-empty table whose records owe a
non-negative amount of time. -/
def RRGood (s : RRState) : Prop :=
  1 ≤ s.procs.length ∧ -1 ≤ s.current ∧
    ∀ j : Nat, 0 ≤ (s.procs.getD j Pcb.zero).burst_left

/-- The pair `(procs, total_time)` of `fcfs_run` after the first `k`
iterations of its loop. -/
def fcfs_after (k : Nat) (procs : List Pcb) : List Pcb × Int :=
  (List.range k).foldl fcfs_body (procs, 0)

/-- The state of the loop of `rr_run` after `k` iterations, none of which is
the `break`; `none` when the `break` comes earlier. -/
def rr_iter (quantum : Int) : Nat → RRState → Option RRState
  | 0, s => some s
  | k + 1, s =>
    match rr_step quantum s with
    | none => none
    | some s' => rr_iter quantum k s'

/-- The invariant of a simulation run on the fresh table of the bursts `b`:
the table has the length of `b`, and every record has a non-negative
`burst_left`, a non-negative `wait` and its position as `pid`. -/
def RunInv (b : List Int) (procs : List Pcb) : Prop :=
  procs.length = b.length ∧ ∀ j : Nat, j < b.length →
    0 ≤ (rd procs (j : Int)).burst_left ∧ 0 ≤ (rd procs (j : Int)).wait ∧
    (rd procs (j : Int)).pid = (j : Int)

/-! ## The round-robin loop on 32-bit `int` -/

/-- The value an `int` holds after the compiled code has computed `x` in 32
bits: two's-complement wrap-around into `[-2^31, 2^31)`.  (In ISO C a signed
overflow is undefined; this is what the machine arithmetic yields.) -/
def wrap32 (x : Int) : Int := (x + 2147483648) % 4294967296 - 2147483648

/-- The values of a 32-bit `int`. -/
abbrev InInt32 (x : Int) : Prop := -2147483648 ≤ x ∧ x ≤ 2147483647

/-- The body of the wait loop of `run_proc` at counter `i`, with the sum
held in a 32-bit `int`. -/
def run_proc_body32 (current amount : Int) (procs : List Pcb) (i : Nat) : List Pcb :=
  if (i : Int) ≠ current ∧ (rd procs i).burst_left > 0 then
    wr procs i { rd procs i with wait := wrap32 ((rd procs i).wait + amount) }
  else procs

/-- The function `run_proc(procs, plen, current, amount)` with every
arithmetic result held in a 32-bit `int`; it is `run_proc` on the calls in
which nothing overflows. -/
def run_proc32 (procs : List Pcb) (current amount : Int) : List Pcb :=
  if (rd procs current).burst_left > 0 then
    let procs1 := wr procs current
      { rd procs current with burst_left := wrap32 ((rd procs current).burst_left - amount) }
    let procs2 :=
      if (rd procs1 current).burst_left < 0 then
        wr procs1 current { rd procs1 current with burst_left := 0 }
      else procs1
    (List.range procs.length).foldl (run_proc_body32 current amount) procs2
  else procs

/-- One iteration of the `while (1)` loop of `rr_run` with every arithmetic
result held in a 32-bit `int`; `none` is the `break`.  (The index sum
`current + i` of `rr_next` stays below twice the table length.) -/
def rr_step32 (quantum : Int) (s : RRState) : Option RRState :=
  let current := rr_next s.current s.procs
  if current = -1 then none
  else
    let rt := run_time quantum (rd s.procs current).burst_left
    some ⟨run_proc32 s.procs current rt, current, wrap32 (s.total_time + rt)⟩

/-- The loop of `rr_run` on 32-bit `int`, at most `fuel` iterations. -/
def rr_loop32 (quantum : Int) : Nat → RRState → Option (List Pcb × Int)
  | 0, _ => none
  | fuel + 1, s =>
    match rr_step32 quantum s with
    | none => some (s.procs, s.total_time)
    | some s' => rr_loop32 quantum fuel s'

/-- The function `rr_run(procs, plen, quantum)` on 32-bit `int`. -/
def rr_run32 (fuel : Nat) (procs : List Pcb) (quantum : Int) : Option (List Pcb × Int) :=
  rr_loop32 quantum fuel ⟨procs, 0, 0⟩

/-- The wait loop of `run_proc` on 32-bit `int` read off the list, for the
part of the table that starts at position `k`. -/
def creditWait32 (current amount : Int) (k : Nat) : List Pcb → List Pcb
  | [] => []
  | p :: ps =>
    (if (k : Int) ≠ current ∧ p.burst_left > 0 then
        { p with wait := wrap32 (p.wait + amount) } else p)
      :: creditWait32 current amount (k + 1) ps

/-! ## Auxiliary lemmas -/

theorem rd_natCast (procs : List Pcb) (i : Nat) :
    rd procs (i : Int) = procs.getD i Pcb.zero := by
  simp [rd]

theorem wr_natCast (procs : List Pcb) (i : Nat) (p : Pcb) :
    wr procs (i : Int) p = procs.set i p := by
  simp [wr]

theorem getD_append_cons (pre ps : List Pcb) (p : Pcb) :
    (pre ++ p :: ps).getD pre.length Pcb.zero = p := by
  induction pre with
  | nil => rfl
  | cons x xs ih => simpa using ih

theorem set_append_cons (pre ps : List Pcb) (p q : Pcb) :
    (pre ++ p :: ps).set pre.length q = pre ++ q :: ps := by
  induction pre with
  | nil => rfl
  | cons x xs ih => simp

theorem range_succ_shift (n k : Nat) :
    (List.range (n + 1)).map (· + k) = k :: (List.range n).map (· + (k + 1)) := by
  rw [List.range_succ_eq_map, List.map_cons, List.map_map]
  simp only [Nat.zero_add, List.cons.injEq, true_and]
  apply List.map_congr_left
  intro a _
  simp only [Function.comp_apply, Nat.succ_eq_add_one]
  omega

theorem fcfs_body_at (pre ps : List Pcb) (p : Pcb) (t : Int) :
    fcfs_body (pre ++ p :: ps, t) pre.length =
      if p.burst_left > 0 then (pre ++ ⟨p.pid, 0, t⟩ :: ps, t + p.burst_left)
      else (pre ++ p :: ps, t) := by
  unfold fcfs_body
  simp only [rd_natCast, wr_natCast, getD_append_cons, set_append_cons]

theorem fcfs_fold_shift (ps : List Pcb) : ∀ (pre : List Pcb) (t : Int),
    ((List.range ps.length).map (· + pre.length)).foldl fcfs_body (pre ++ ps, t) =
      (pre ++ (fcfs_list t ps).1, (fcfs_list t ps).2) := by
  induction ps with
  | nil => intro pre t; simp [fcfs_list]
  | cons p ps ih =>
    intro pre t
    rw [List.length_cons, range_succ_shift, List.foldl_cons, fcfs_body_at]
    by_cases hp : p.burst_left > 0
    · have h := ih (pre ++ [⟨p.pid, 0, t⟩]) (t + p.burst_left)
      simp only [List.length_append, List.length_singleton, List.append_assoc,
        List.singleton_append] at h
      simp only [hp, if_true, fcfs_list, h]
    · have h := ih (pre ++ [p]) t
      simp only [List.length_append, List.length_singleton, List.append_assoc,
        List.singleton_append] at h
      simp only [hp, if_false, fcfs_list, h]

theorem fcfs_run_eq_list (procs : List Pcb) : fcfs_run procs = fcfs_list 0 procs := by
  have h := fcfs_fold_shift procs [] 0
  simpa [fcfs_run] using h

theorem elapsedBefore_zero (procs : List Pcb) : elapsedBefore procs 0 = 0 := by
  simp [elapsedBefore]

theorem elapsedBefore_cons_succ (p : Pcb) (ps : List Pcb) (k : Nat) :
    elapsedBefore (p :: ps) (k + 1) =
      (if p.burst_left > 0 then p.burst_left else 0) + elapsedBefore ps k := by
  simp [elapsedBefore]

theorem fcfs_list_length (ps : List Pcb) : ∀ t : Int, (fcfs_list t ps).1.length = ps.length := by
  induction ps with
  | nil => intro t; rfl
  | cons p ps ih =>
    intro t
    by_cases hp : p.burst_left > 0 <;> simp [fcfs_list, hp, ih]

theorem fcfs_list_total (ps : List Pcb) :
    ∀ t : Int, (fcfs_list t ps).2 = t + elapsedBefore ps ps.length := by
  induction ps with
  | nil => intro t; simp [fcfs_list, elapsedBefore]
  | cons p ps ih =>
    intro t
    by_cases hp : p.burst_left > 0
    · simp only [fcfs_list, hp, if_true, ih, List.length_cons, elapsedBefore_cons_succ]; ring
    · simp only [fcfs_list, hp, if_false, ih, List.length_cons, elapsedBefore_cons_succ]; ring

theorem fcfs_list_getD (ps : List Pcb) : ∀ (t : Int) (j : Nat),
    (fcfs_list t ps).1.getD j Pcb.zero =
      if (ps.getD j Pcb.zero).burst_left > 0 then
        ⟨(ps.getD j Pcb.zero).pid, 0, t + elapsedBefore ps j⟩
      else ps.getD j Pcb.zero := by
  induction ps with
  | nil => intro t j; simp [fcfs_list, Pcb.zero]
  | cons p ps ih =>
    intro t j
    cases j with
    | zero =>
      by_cases hp : p.burst_left > 0 <;> simp [fcfs_list, hp, elapsedBefore_zero]
    | succ j =>
      by_cases hp : p.burst_left > 0
      · simp only [fcfs_list, hp, if_true, List.getD_cons_succ, ih, elapsedBefore_cons_succ,
          add_assoc]
      · simp only [fcfs_list, hp, if_false, List.getD_cons_succ, ih, elapsedBefore_cons_succ,
          zero_add]

theorem init_procs_length (b : List Int) : (init_procs b).length = b.length := by
  simp [init_procs]

theorem init_procs_getD (b : List Int) (i : Nat) (h : i < b.length) :
    (init_procs b).getD i Pcb.zero = ⟨(i : Int), b.getD i 0, 0⟩ := by
  simp [init_procs, List.getD_eq_getElem?_getD, List.getElem?_map, List.getElem?_range, h]

theorem init_procs_bursts (b : List Int) : (init_procs b).map Pcb.burst_left = b := by
  apply List.ext_getElem?
  intro i
  by_cases h : i < b.length
  · simp [init_procs, List.getElem?_map, List.getElem?_range, h]
  · have h1 : b.length ≤ i := Nat.le_of_not_lt h
    simp [init_procs, List.getElem?_map, List.getElem?_eq_none h1, h1]

theorem sum_take_map_pos (b : List Int) (hb : ∀ x ∈ b, 0 ≤ x) (k : Nat) :
    ((b.take k).map fun x : Int => if x > 0 then x else 0).sum = (b.take k).sum := by
  congr 1
  conv_rhs => rw [← List.map_id (b.take k)]
  apply List.map_congr_left
  intro x hx
  have h0 := hb x (List.mem_of_mem_take hx)
  by_cases hx0 : x > 0
  · simp [hx0]
  · have : x = 0 := by omega
    simp [this]

theorem elapsedBefore_init (b : List Int) (hb : ∀ x ∈ b, 0 ≤ x) (k : Nat) :
    elapsedBefore (init_procs b) k = (b.take k).sum := by
  have h : elapsedBefore (init_procs b) k =
      ((((init_procs b).map Pcb.burst_left).take k).map
        fun x : Int => if x > 0 then x else 0).sum := by
    simp [elapsedBefore, List.map_take, List.map_map, Function.comp_def]
  rw [h, init_procs_bursts, sum_take_map_pos b hb]

theorem run_proc_body_at (c a : Int) (pre ps : List Pcb) (p : Pcb) :
    run_proc_body c a (pre ++ p :: ps) pre.length =
      pre ++ (if (pre.length : Int) ≠ c ∧ p.burst_left > 0 then
        { p with wait := p.wait + a } else p) :: ps := by
  unfold run_proc_body
  simp only [rd_natCast, wr_natCast, getD_append_cons, set_append_cons]
  split_ifs <;> rfl

theorem run_proc_fold_shift (c a : Int) (ps : List Pcb) : ∀ pre : List Pcb,
    ((List.range ps.length).map (· + pre.length)).foldl (run_proc_body c a) (pre ++ ps) =
      pre ++ creditWait c a pre.length ps := by
  induction ps with
  | nil => intro pre; simp [creditWait]
  | cons p ps ih =>
    intro pre
    rw [List.length_cons, range_succ_shift, List.foldl_cons, run_proc_body_at]
    have h := ih (pre ++ [if (pre.length : Int) ≠ c ∧ p.burst_left > 0 then
        { p with wait := p.wait + a } else p])
    simp only [List.length_append, List.length_singleton, List.append_assoc,
      List.singleton_append] at h
    rw [h, creditWait]

theorem run_proc_fold (c a : Int) (ps : List Pcb) :
    (List.range ps.length).foldl (run_proc_body c a) ps = creditWait c a 0 ps := by
  have h := run_proc_fold_shift c a ps []
  simpa using h

theorem creditWait_length (c a : Int) (ps : List Pcb) :
    ∀ k : Nat, (creditWait c a k ps).length = ps.length := by
  induction ps with
  | nil => intro k; rfl
  | cons p ps ih => intro k; simp [creditWait, ih]

theorem creditWait_getD (c a : Int) (ps : List Pcb) : ∀ (k j : Nat),
    (creditWait c a k ps).getD j Pcb.zero =
      if ((k + j : Nat) : Int) ≠ c ∧ (ps.getD j Pcb.zero).burst_left > 0 then
        { ps.getD j Pcb.zero with wait := (ps.getD j Pcb.zero).wait + a }
      else ps.getD j Pcb.zero := by
  induction ps with
  | nil => intro k j; simp [creditWait, Pcb.zero]
  | cons p ps ih =>
    intro k j
    cases j with
    | zero => simp [creditWait]
    | succ j =>
      simp only [creditWait, List.getD_cons_succ, ih]
      have : k + 1 + j = k + (j + 1) := by omega
      rw [this]

theorem getD_set_pcb (procs : List Pcb) (c : Nat) (hc : c < procs.length) (q : Pcb) (j : Nat) :
    (procs.set c q).getD j Pcb.zero = if j = c then q else procs.getD j Pcb.zero := by
  simp only [List.getD_eq_getElem?_getD, List.getElem?_set]
  by_cases h : c = j
  · subst h; simp [hc]
  · have h' : ¬ j = c := fun e => h e.symm
    simp [h, h']

/-- The table `run_proc` leaves when the guard `burst_left > 0` holds at a
position inside the table. -/
theorem run_proc_eq (procs : List Pcb) (c : Nat) (hc : c < procs.length) (a : Int)
    (hpos : (procs.getD c Pcb.zero).burst_left > 0) :
    run_proc procs (c : Int) a =
      creditWait (c : Int) a 0 (procs.set c { procs.getD c Pcb.zero with
        burst_left := max ((procs.getD c Pcb.zero).burst_left - a) 0 }) := by
  unfold run_proc
  simp only [rd_natCast, wr_natCast, hpos, if_true]
  have hset : ∀ q : Pcb, (procs.set c q).getD c Pcb.zero = q := by
    intro q; rw [getD_set_pcb procs c hc]; simp
  simp only [hset, List.set_set]
  by_cases hneg : (procs.getD c Pcb.zero).burst_left - a < 0
  · have hmax : max ((procs.getD c Pcb.zero).burst_left - a) 0 = 0 := by omega
    simp only [hneg, if_true, hmax]
    have hl : procs.length = (procs.set c { procs.getD c Pcb.zero with burst_left := 0 }).length := by
      simp
    conv_lhs => rw [hl]
    exact run_proc_fold _ _ _
  · have hmax : max ((procs.getD c Pcb.zero).burst_left - a) 0 =
        (procs.getD c Pcb.zero).burst_left - a := by omega
    simp only [hneg, if_false, hmax]
    have hl : procs.length = (procs.set c { procs.getD c Pcb.zero with
        burst_left := (procs.getD c Pcb.zero).burst_left - a }).length := by
      simp
    conv_lhs => rw [hl]
    exact run_proc_fold _ _ _

theorem run_proc_skip (procs : List Pcb) (c a : Int)
    (h : ¬ (rd procs c).burst_left > 0) : run_proc procs c a = procs := by
  unfold run_proc
  rw [if_neg h]

theorem run_proc_length (procs : List Pcb) (c : Nat) (hc : c < procs.length) (a : Int) :
    (run_proc procs (c : Int) a).length = procs.length := by
  by_cases hpos : (procs.getD c Pcb.zero).burst_left > 0
  · rw [run_proc_eq procs c hc a hpos, creditWait_length, List.length_set]
  · rw [run_proc_skip procs c a (by rw [rd_natCast]; exact hpos)]

theorem run_proc_getD (procs : List Pcb) (c : Nat) (hc : c < procs.length) (a : Int)
    (hpos : (procs.getD c Pcb.zero).burst_left > 0) (j : Nat) :
    (run_proc procs (c : Int) a).getD j Pcb.zero =
      if j = c then { procs.getD c Pcb.zero with
          burst_left := max ((procs.getD c Pcb.zero).burst_left - a) 0 }
      else if (procs.getD j Pcb.zero).burst_left > 0 then
        { procs.getD j Pcb.zero with wait := (procs.getD j Pcb.zero).wait + a }
      else procs.getD j Pcb.zero := by
  rw [run_proc_eq procs c hc a hpos, creditWait_getD, getD_set_pcb procs c hc]
  by_cases hj : j = c
  · subst hj; simp
  · have : ¬ ((0 + j : Nat) : Int) = (c : Int) := by
      intro e; apply hj; omega
    simp [hj, this]

/-- What the loop of `rr_next` returns from counter `i` with `k` iterations
left: `-1` after `k` positions without positive burst, or the position of the
first counter value `j` at which the burst is positive. -/
theorem rr_next_loop_spec (c : Int) (procs : List Pcb) : ∀ (k i : Nat),
    (rr_next_loop c procs k i = -1 ∧
      ∀ j : Nat, i ≤ j → j < i + k →
        ¬ (rd procs (Int.tmod (c + (j : Int)) (procs.length : Int))).burst_left > 0) ∨
    (∃ j : Nat, i ≤ j ∧ j < i + k ∧
      rr_next_loop c procs k i = Int.tmod (c + (j : Int)) (procs.length : Int) ∧
      (rd procs (Int.tmod (c + (j : Int)) (procs.length : Int))).burst_left > 0 ∧
      ∀ j' : Nat, i ≤ j' → j' < j →
        ¬ (rd procs (Int.tmod (c + (j' : Int)) (procs.length : Int))).burst_left > 0) := by
  intro k
  induction k with
  | zero =>
    intro i
    left
    refine ⟨rfl, ?_⟩
    intro j h1 h2
    omega
  | succ k ih =>
    intro i
    by_cases hpos : (rd procs (Int.tmod (c + (i : Int)) (procs.length : Int))).burst_left > 0
    · right
      refine ⟨i, le_refl i, by omega, ?_, hpos, ?_⟩
      · simp only [rr_next_loop, hpos, if_true]
      · intro j' h1 h2
        omega
    · have hstep : rr_next_loop c procs (k + 1) i = rr_next_loop c procs k (i + 1) := by
        simp only [rr_next_loop, hpos, if_false]
      rcases ih (i + 1) with ⟨h1, h2⟩ | ⟨j, hj1, hj2, hj3, hj4, hj5⟩
      · left
        refine ⟨by rw [hstep, h1], ?_⟩
        intro j hj hj'
        by_cases hji : j = i
        · subst hji; exact hpos
        · exact h2 j (by omega) (by omega)
      · right
        refine ⟨j, by omega, by omega, by rw [hstep, hj3], hj4, ?_⟩
        intro j' hj' hj''
        by_cases hji : j' = i
        · subst hji; exact hpos
        · exact hj5 j' (by omega) hj''

theorem tmod_circ (c : Int) (n j : Nat) (hc : -1 ≤ c) (hj : 1 ≤ j) :
    Int.tmod (c + (j : Int)) (n : Int) = (c + (j : Int)) % (n : Int) :=
  Int.tmod_eq_emod (by omega) (by omega)

theorem rd_not_pos_of_neg (procs : List Pcb) (i : Int) (h : i < 0) :
    ¬ (rd procs i).burst_left > 0 := by
  have : ¬ 0 ≤ i := by omega
  simp [rd, this, Pcb.zero]

/-- Every position of a non-empty table occurs in the circular order
`current + 1, ..., current + n` taken modulo `n`. -/
theorem circ_surj (c : Int) (n p : Nat) (hn : 1 ≤ n) (hp : p < n) :
    ∃ j : Nat, 1 ≤ j ∧ j ≤ n ∧ (c + (j : Int)) % (n : Int) = (p : Int) := by
  have hn0 : (0 : Int) < (n : Int) := by omega
  have h1 : 0 ≤ ((p : Int) - c - 1) % (n : Int) := Int.emod_nonneg _ (by omega)
  have h2 : ((p : Int) - c - 1) % (n : Int) < (n : Int) := Int.emod_lt_of_pos _ hn0
  refine ⟨(((p : Int) - c - 1) % (n : Int)).toNat + 1, by omega, by omega, ?_⟩
  have hcast : (((((p : Int) - c - 1) % (n : Int)).toNat + 1 : Nat) : Int) =
      ((p : Int) - c - 1) % (n : Int) + 1 := by
    push_cast
    rw [Int.toNat_of_nonneg h1]
  rw [hcast]
  have h3 : c + (((p : Int) - c - 1) % (n : Int) + 1) =
      (c + 1) + ((p : Int) - c - 1) % (n : Int) := by ring
  rw [h3, Int.add_emod_emod]
  have h4 : c + 1 + ((p : Int) - c - 1) = (p : Int) := by ring
  rw [h4]
  exact Int.emod_eq_of_lt (by omega) (by omega)

/-- The two outcomes of `rr_next` on a non-empty table entered with
`current ≥ -1`: `-1` when no record has positive burst, otherwise the first
position with positive burst in the circular order after `current`. -/
theorem rr_next_cases (procs : List Pcb) (c : Int) (hn : 1 ≤ procs.length) (hc : -1 ≤ c) :
    (rr_next c procs = -1 ∧
      ∀ p : Nat, p < procs.length → ¬ (rd procs (p : Int)).burst_left > 0) ∨
    (∃ r : Nat, r < procs.length ∧ rr_next c procs = (r : Int) ∧
      (rd procs (r : Int)).burst_left > 0 ∧
      ∃ j : Nat, 1 ≤ j ∧ j ≤ procs.length ∧
        (r : Int) = (c + (j : Int)) % (procs.length : Int) ∧
        ∀ j' : Nat, 1 ≤ j' → j' < j →
          ¬ (rd procs ((c + (j' : Int)) % (procs.length : Int))).burst_left > 0) := by
  have hn0 : (0 : Int) < (procs.length : Int) := by omega
  rcases rr_next_loop_spec c procs procs.length 1 with ⟨h1, h2⟩ | ⟨j, hj1, hj2, hj3, hj4, hj5⟩
  · left
    refine ⟨h1, ?_⟩
    intro p hp
    obtain ⟨j, hj1, hj2, hj3⟩ := circ_surj c procs.length p hn hp
    have := h2 j hj1 (by omega)
    rw [tmod_circ c procs.length j hc hj1, hj3] at this
    exact this
  · right
    rw [tmod_circ c procs.length j hc hj1] at hj3 hj4
    have hlo : 0 ≤ (c + (j : Int)) % (procs.length : Int) := Int.emod_nonneg _ (by omega)
    have hhi : (c + (j : Int)) % (procs.length : Int) < (procs.length : Int) :=
      Int.emod_lt_of_pos _ hn0
    have hr : (((c + (j : Int)) % (procs.length : Int)).toNat : Int) =
        (c + (j : Int)) % (procs.length : Int) := Int.toNat_of_nonneg hlo
    refine ⟨((c + (j : Int)) % (procs.length : Int)).toNat, by omega, ?_, ?_, j, hj1,
      by omega, hr, ?_⟩
    · rw [hr]; exact hj3
    · rw [hr]; exact hj4
    · intro j' h1 h2
      have := hj5 j' h1 h2
      rw [tmod_circ c procs.length j' hc h1] at this
      exact this

theorem remaining_creditWait (c a : Int) (ps : List Pcb) :
    ∀ k : Nat, remaining (creditWait c a k ps) = remaining ps := by
  induction ps with
  | nil => intro k; rfl
  | cons p ps ih =>
    intro k
    have h := ih (k + 1)
    simp only [remaining] at h ⊢
    simp only [creditWait, List.map_cons, List.sum_cons, h]
    split_ifs <;> rfl

theorem remaining_set (procs : List Pcb) (q : Pcb) : ∀ c : Nat, c < procs.length →
    remaining (procs.set c q) =
      remaining procs - (procs.getD c Pcb.zero).burst_left + q.burst_left := by
  induction procs with
  | nil => intro c hc; simp at hc
  | cons p ps ih =>
    intro c hc
    cases c with
    | zero => simp [remaining]; ring
    | succ c =>
      have h := ih c (by simpa using hc)
      simp only [remaining] at h ⊢
      simp only [List.set_cons_succ, List.map_cons, List.sum_cons, h, List.getD_cons_succ]
      ring

theorem remaining_run_proc (procs : List Pcb) (c : Nat) (hc : c < procs.length) (a : Int)
    (h1 : 1 ≤ a) (h2 : a ≤ (procs.getD c Pcb.zero).burst_left) :
    remaining (run_proc procs (c : Int) a) = remaining procs - a := by
  rw [run_proc_eq procs c hc a (by omega), remaining_creditWait, remaining_set procs _ c hc]
  have : max ((procs.getD c Pcb.zero).burst_left - a) 0 =
      (procs.getD c Pcb.zero).burst_left - a := by omega
  simp only [this]
  ring

theorem remaining_nonneg (procs : List Pcb)
    (h : ∀ j : Nat, 0 ≤ (procs.getD j Pcb.zero).burst_left) : 0 ≤ remaining procs := by
  induction procs with
  | nil => simp [remaining]
  | cons p ps ih =>
    have h0 := h 0
    have hs := ih (fun j => by simpa using h (j + 1))
    simp only [remaining, List.map_cons, List.sum_cons] at hs ⊢
    simp only [List.getD_cons_zero] at h0
    omega

theorem remaining_eq_zero (procs : List Pcb)
    (h : ∀ j : Nat, j < procs.length → (procs.getD j Pcb.zero).burst_left = 0) :
    remaining procs = 0 := by
  induction procs with
  | nil => simp [remaining]
  | cons p ps ih =>
    have h0 := h 0 (by simp)
    have hs := ih (fun j hj => by simpa using h (j + 1) (by simpa using hj))
    simp only [remaining, List.map_cons, List.sum_cons] at hs ⊢
    simp only [List.getD_cons_zero] at h0
    omega

theorem run_time_bounds (q bl : Int) (hq : 0 < q) (hbl : 0 < bl) :
    1 ≤ run_time q bl ∧ run_time q bl ≤ bl ∧ run_time q bl ≤ q := by
  unfold run_time
  split_ifs <;> omega

/-- The two outcomes of one iteration of the loop of `rr_run`: the `break`,
when no record has positive burst, or a call of `run_proc` at a position `r`
inside the table with positive burst. -/
theorem rr_step_cases (q : Int) (s : RRState) (hn : 1 ≤ s.procs.length)
    (hc : -1 ≤ s.current) :
    (rr_step q s = none ∧
      ∀ p : Nat, p < s.procs.length → ¬ (s.procs.getD p Pcb.zero).burst_left > 0) ∨
    (∃ r : Nat, r < s.procs.length ∧ (s.procs.getD r Pcb.zero).burst_left > 0 ∧
      rr_next s.current s.procs = (r : Int) ∧
      rr_step q s = some ⟨run_proc s.procs (r : Int)
          (run_time q (s.procs.getD r Pcb.zero).burst_left), (r : Int),
        s.total_time + run_time q (s.procs.getD r Pcb.zero).burst_left⟩) := by
  rcases rr_next_cases s.procs s.current hn hc with ⟨h1, h2⟩ | ⟨r, hr1, hr2, hr3, _⟩
  · left
    refine ⟨by simp [rr_step, h1], ?_⟩
    intro p hp
    have := h2 p hp
    rwa [rd_natCast] at this
  · right
    rw [rd_natCast] at hr3
    refine ⟨r, hr1, hr3, hr2, ?_⟩
    have hne : ¬ ((r : Int) = -1) := by omega
    simp only [rr_step, hr2, hne, if_false, rd_natCast, run_time]

/-- One iteration of the loop of `rr_run` with a positive quantum, from a good
state: it runs a position `r` inside the table for an amount `a` with
`1 ≤ a ≤ burst_left[r]`, and the total remaining burst drops by `a`. -/
theorem rr_step_good (q : Int) (hq : 0 < q) (s s' : RRState) (hg : RRGood s)
    (hs : rr_step q s = some s') :
    RRGood s' ∧ s'.procs.length = s.procs.length ∧
    ∃ (r : Nat) (a : Int), r < s.procs.length ∧ 1 ≤ a ∧
      a ≤ (s.procs.getD r Pcb.zero).burst_left ∧ a ≤ q ∧
      rr_next s.current s.procs = (r : Int) ∧
      a = run_time q (s.procs.getD r Pcb.zero).burst_left ∧
      s'.procs = run_proc s.procs (r : Int) a ∧ s'.current = (r : Int) ∧
      s'.total_time = s.total_time + a ∧
      remaining s'.procs = remaining s.procs - a := by
  obtain ⟨hn, hc, hnn⟩ := hg
  rcases rr_step_cases q s hn hc with ⟨h1, _⟩ | ⟨r, hr1, hr2, hr3, hr4⟩
  · rw [h1] at hs; cases hs
  · rw [hr4] at hs
    injection hs with hs
    subst hs
    obtain ⟨ha1, ha2, ha3⟩ := run_time_bounds q _ hq hr2
    refine ⟨⟨?_, ?_, ?_⟩, ?_, r, _, hr1, ha1, ha2, ha3, hr3, rfl, rfl, rfl, rfl, ?_⟩
    · simp only [run_proc_length s.procs r hr1]; exact hn
    · simp only; omega
    · intro j
      simp only [run_proc_getD s.procs r hr1 _ hr2]
      split_ifs
      · simp only; omega
      · exact hnn j
      · exact hnn j
    · exact run_proc_length s.procs r hr1 _
    · exact remaining_run_proc s.procs r hr1 _ ha1 ha2

/-- At the `break` of the loop of `rr_run`, reached from a good state, every
record is complete. -/
theorem rr_break_complete (q : Int) (s : RRState) (hg : RRGood s)
    (hs : rr_step q s = none) (j : Nat) : (s.procs.getD j Pcb.zero).burst_left = 0 := by
  obtain ⟨hn, hc, hnn⟩ := hg
  rcases rr_step_cases q s hn hc with ⟨_, h2⟩ | ⟨r, _, _, _, hr4⟩
  · by_cases hj : j < s.procs.length
    · have h1 := h2 j hj
      have h0 := hnn j
      omega
    · rw [List.getD_eq_default _ _ (by omega)]; rfl
  · rw [hr4] at hs; cases hs

/-- The loop of `rr_run` with a positive quantum, started in a good state
with more fuel than the total remaining burst, reaches its `break`, and every
property that the iterations preserve holds there. -/
theorem rr_loop_inv (q : Int) (hq : 0 < q) (P : RRState → Prop)
    (hP : ∀ s s', RRGood s → P s → rr_step q s = some s' → P s') :
    ∀ (fuel : Nat) (s : RRState), RRGood s → P s → remaining s.procs < (fuel : Int) →
      ∃ sf : RRState, rr_loop q fuel s = some (sf.procs, sf.total_time) ∧
        RRGood sf ∧ P sf ∧ rr_step q sf = none := by
  intro fuel
  induction fuel with
  | zero =>
    intro s hg _ hf
    have := remaining_nonneg s.procs hg.2.2
    simp at hf
    omega
  | succ fuel ih =>
    intro s hg hp hf
    cases hstep : rr_step q s with
    | none =>
      exact ⟨s, by simp [rr_loop, hstep], hg, hp, hstep⟩
    | some s' =>
      obtain ⟨hg', _, r, a, _, ha1, _, _, _, _, _, _, _, hrem⟩ := rr_step_good q hq s s' hg hstep
      obtain ⟨sf, h1, h2, h3, h4⟩ := ih s' hg' (hP s s' hg hp hstep) (by push_cast at hf; omega)
      exact ⟨sf, by simp [rr_loop, hstep, h1], h2, h3, h4⟩

theorem remaining_init_procs (b : List Int) : remaining (init_procs b) = b.sum := by
  rw [remaining, init_procs_bursts]

theorem init_procs_getD_burst_nonneg (b : List Int) (hb : ∀ x ∈ b, 0 ≤ x) (j : Nat) :
    0 ≤ ((init_procs b).getD j Pcb.zero).burst_left := by
  by_cases hj : j < b.length
  · rw [init_procs_getD b j hj]
    simp only [List.getD_eq_getElem?_getD, List.getElem?_eq_getElem hj, Option.getD_some]
    exact hb _ (List.getElem_mem hj)
  · rw [List.getD_eq_default _ _ (by rw [init_procs_length]; omega)]
    decide

theorem rr_init_good (b : List Int) (hne : b ≠ []) (hb : ∀ x ∈ b, 0 ≤ x) :
    RRGood ⟨init_procs b, 0, 0⟩ := by
  refine ⟨?_, ?_, init_procs_getD_burst_nonneg b hb⟩
  · simp only [init_procs_length]
    exact List.length_pos.mpr hne
  · simp only
    omega

theorem getD_mem_or_zero (procs : List Pcb) (j : Nat) :
    procs.getD j Pcb.zero ∈ procs ∨ procs.getD j Pcb.zero = Pcb.zero := by
  by_cases hj : j < procs.length
  · left
    rw [List.getD_eq_getElem _ _ hj]
    exact List.getElem_mem hj
  · right
    exact List.getD_eq_default _ _ (by omega)

theorem rd_mem_or_zero (procs : List Pcb) (i : Int) :
    rd procs i ∈ procs ∨ rd procs i = Pcb.zero := by
  unfold rd
  split_ifs
  · exact getD_mem_or_zero procs i.toNat
  · right; rfl

theorem getD_burst_nonneg_of_mem (procs : List Pcb) (h : ∀ p ∈ procs, 0 ≤ p.burst_left)
    (j : Nat) : 0 ≤ (procs.getD j Pcb.zero).burst_left := by
  rcases getD_mem_or_zero procs j with hm | hz
  · exact h _ hm
  · rw [hz]; decide

theorem rd_burst_not_pos (procs : List Pcb) (h : ∀ p ∈ procs, ¬ p.burst_left > 0)
    (i : Int) : ¬ (rd procs i).burst_left > 0 := by
  rcases rd_mem_or_zero procs i with hm | hz
  · exact h _ hm
  · rw [hz]; decide

theorem mem_burst_of_getD (procs : List Pcb) (P : Int → Prop)
    (h : ∀ j : Nat, j < procs.length → P (procs.getD j Pcb.zero).burst_left) :
    ∀ p ∈ procs, P p.burst_left := by
  intro p hp
  obtain ⟨j, hj, rfl⟩ := List.mem_iff_getElem.mp hp
  have := h j hj
  rwa [List.getD_eq_getElem _ _ hj] at this

/-- On a table without a record of positive burst, `rr_next` returns `-1`
whatever `current` is. -/
theorem rr_next_none (procs : List Pcb) (c : Int) (h : ∀ p ∈ procs, ¬ p.burst_left > 0) :
    rr_next c procs = -1 := by
  rcases rr_next_loop_spec c procs procs.length 1 with ⟨h1, _⟩ | ⟨j, _, _, _, hj4, _⟩
  · exact h1
  · exact absurd hj4 (rd_burst_not_pos procs h _)

theorem fcfs_list_skip_all (ps : List Pcb) (h : ∀ p ∈ ps, ¬ p.burst_left > 0) :
    ∀ t : Int, fcfs_list t ps = (ps, t) := by
  induction ps with
  | nil => intro t; rfl
  | cons p ps ih =>
    intro t
    have hp : ¬ p.burst_left > 0 := h p (List.mem_cons_self _ _)
    have hps := ih (fun x hx => h x (List.mem_cons_of_mem _ hx)) t
    simp only [fcfs_list, hp, if_false, hps]

/-- On a table of one record the loop of `rr_run` with a positive quantum
selects position 0 at every tick. -/
theorem rr_ticks_single (q : Int) (hq : 0 < q) : ∀ (fuel : Nat) (s : RRState),
    RRGood s → s.procs.length = 1 → ∀ t ∈ rr_ticks q fuel s, t.1 = 0 := by
  intro fuel
  induction fuel with
  | zero => intro s _ _ t ht; simp [rr_ticks] at ht
  | succ fuel ih =>
    intro s hg hl t ht
    cases hstep : rr_step q s with
    | none => simp [rr_ticks, hstep] at ht
    | some s' =>
      obtain ⟨hg', hlen, r, a, hr, _, _, _, _, _, _, hcur, _, _⟩ :=
        rr_step_good q hq s s' hg hstep
      simp only [rr_ticks, hstep, List.mem_cons] at ht
      rcases ht with rfl | ht
      · simp only [hcur]
        omega
      · exact ih s' hg' (by omega) t ht

theorem elapsedBefore_length (ps : List Pcb) :
    elapsedBefore ps ps.length =
      (ps.map fun p => if p.burst_left > 0 then p.burst_left else 0).sum := by
  simp [elapsedBefore]

/-- Removing a record that the loop of `fcfs_run` skips does not change the
clock at the end of the loop. -/
theorem elapsedBefore_eraseIdx (ps : List Pcb) : ∀ i : Nat,
    ¬ (ps.getD i Pcb.zero).burst_left > 0 →
    elapsedBefore (ps.eraseIdx i) (ps.eraseIdx i).length = elapsedBefore ps ps.length := by
  induction ps with
  | nil => intro i _; rfl
  | cons p ps ih =>
    intro i h
    cases i with
    | zero =>
      simp only [List.getD_cons_zero] at h
      simp only [List.eraseIdx_cons_zero, List.length_cons, elapsedBefore_cons_succ, h, if_false,
        zero_add]
    | succ i =>
      simp only [List.getD_cons_succ] at h
      simp only [List.eraseIdx_cons_succ, List.length_cons, elapsedBefore_cons_succ, ih i h]

/-- An iteration of the loop of `rr_run` that does not `break` started on a
non-empty table. -/
theorem rr_step_some_good (q : Int) (s s' : RRState) (hc : -1 ≤ s.current)
    (hnn : ∀ j : Nat, 0 ≤ (s.procs.getD j Pcb.zero).burst_left)
    (hs : rr_step q s = some s') : RRGood s := by
  refine ⟨?_, hc, hnn⟩
  by_contra hlen
  have hnil : s.procs = [] := List.length_eq_zero.mp (by omega)
  have hnone : rr_next s.current s.procs = -1 :=
    rr_next_none s.procs s.current (by rw [hnil]; intro p hp; simp at hp)
  simp [rr_step, hnone] at hs

/-- The loop of `rr_run` with a positive quantum reaches its `break` within
`remaining + 1` iterations, on every table of non-negative bursts. -/
theorem rr_loop_terminates (q : Int) (hq : 0 < q) : ∀ (fuel : Nat) (s : RRState),
    -1 ≤ s.current → (∀ j : Nat, 0 ≤ (s.procs.getD j Pcb.zero).burst_left) →
    remaining s.procs < (fuel : Int) → ∃ r, rr_loop q fuel s = some r := by
  intro fuel
  induction fuel with
  | zero =>
    intro s _ hnn hf
    have := remaining_nonneg s.procs hnn
    simp at hf
    omega
  | succ fuel ih =>
    intro s hc hnn hf
    cases hstep : rr_step q s with
    | none => exact ⟨(s.procs, s.total_time), by simp [rr_loop, hstep]⟩
    | some s' =>
      have hg := rr_step_some_good q s s' hc hnn hstep
      obtain ⟨hg', _, r, a, _, ha1, _, _, _, _, _, _, _, hrem⟩ := rr_step_good q hq s s' hg hstep
      obtain ⟨res, hres⟩ := ih s' hg'.2.1 hg'.2.2 (by push_cast at hf; omega)
      exact ⟨res, by simp [rr_loop, hstep, hres]⟩

/-- The loop of `rr_run` with a positive quantum makes at most `remaining`
ticks. -/
theorem rr_ticks_length_le (q : Int) (hq : 0 < q) : ∀ (fuel : Nat) (s : RRState),
    -1 ≤ s.current → (∀ j : Nat, 0 ≤ (s.procs.getD j Pcb.zero).burst_left) →
    ((rr_ticks q fuel s).length : Int) ≤ remaining s.procs := by
  intro fuel
  induction fuel with
  | zero =>
    intro s _ hnn
    have := remaining_nonneg s.procs hnn
    simpa [rr_ticks] using this
  | succ fuel ih =>
    intro s hc hnn
    have h0 := remaining_nonneg s.procs hnn
    cases hstep : rr_step q s with
    | none => simpa [rr_ticks, hstep] using h0
    | some s' =>
      have hg := rr_step_some_good q s s' hc hnn hstep
      obtain ⟨hg', _, r, a, _, ha1, _, _, _, _, _, _, _, hrem⟩ := rr_step_good q hq s s' hg hstep
      have := ih s' hg'.2.1 hg'.2.2
      simp only [rr_ticks, hstep, List.length_cons]
      push_cast
      omega

theorem fcfs_after_succ (k : Nat) (procs : List Pcb) :
    fcfs_after (k + 1) procs = fcfs_body (fcfs_after k procs) k := by
  simp [fcfs_after, List.range_succ, List.foldl_append]

theorem fcfs_after_length (procs : List Pcb) : fcfs_after procs.length procs = fcfs_run procs :=
  rfl

/-- The loop body of `fcfs_run` at a counter inside the table. -/
theorem fcfs_body_eq (procs : List Pcb) (t : Int) (i : Nat) (hi : i < procs.length) :
    fcfs_body (procs, t) i =
      if (procs.getD i Pcb.zero).burst_left > 0 then
        (procs.set i ⟨(procs.getD i Pcb.zero).pid, 0, t⟩, t + (procs.getD i Pcb.zero).burst_left)
      else (procs, t) := by
  unfold fcfs_body
  simp only [rd_natCast, wr_natCast]
  have hset : ∀ q : Pcb, (procs.set i q).getD i Pcb.zero = q := by
    intro q; rw [getD_set_pcb procs i hi]; simp
  simp only [hset, List.set_set]

theorem init_procs_runInv (b : List Int) (hb : ∀ x ∈ b, 0 ≤ x) : RunInv b (init_procs b) := by
  refine ⟨init_procs_length b, ?_⟩
  intro j hj
  have h0 := init_procs_getD_burst_nonneg b hb j
  rw [rd_natCast]
  refine ⟨h0, ?_, ?_⟩ <;> rw [init_procs_getD b j hj]

/-- An iteration of the loop of `fcfs_run` keeps the invariant of the run and
raises no `burst_left`. -/
theorem fcfs_body_inv (b : List Int) (procs : List Pcb) (t : Int) (i : Nat)
    (hi : i < procs.length) (h : RunInv b procs) (ht : 0 ≤ t) :
    RunInv b (fcfs_body (procs, t) i).1 ∧ 0 ≤ (fcfs_body (procs, t) i).2 ∧
    ∀ j : Nat, j < b.length →
      (rd (fcfs_body (procs, t) i).1 (j : Int)).burst_left ≤ (rd procs (j : Int)).burst_left := by
  obtain ⟨hlen, hrec⟩ := h
  rw [fcfs_body_eq procs t i hi]
  have hi0 := (hrec i (by omega)).1
  rw [rd_natCast] at hi0
  by_cases hpos : (procs.getD i Pcb.zero).burst_left > 0
  · simp only [hpos, if_true]
    refine ⟨⟨by simpa using hlen, ?_⟩, by omega, ?_⟩
    · intro j hj
      obtain ⟨h1, h2, h3⟩ := hrec j hj
      rw [rd_natCast] at h1 h2 h3 ⊢
      rw [getD_set_pcb procs i hi]
      by_cases hji : j = i
      · subst hji
        simp only [if_true]
        exact ⟨le_refl 0, ht, h3⟩
      · simp only [if_neg hji]
        exact ⟨h1, h2, h3⟩
    · intro j hj
      obtain ⟨h1, _, _⟩ := hrec j hj
      rw [rd_natCast] at h1 ⊢
      rw [rd_natCast, getD_set_pcb procs i hi]
      by_cases hji : j = i
      · subst hji
        simp only [if_true]
        exact h1
      · simp only [if_neg hji]
        exact le_refl _
  · simp only [hpos, if_false]
    exact ⟨⟨hlen, hrec⟩, ht, fun j _ => le_refl _⟩

theorem fcfs_after_inv (b : List Int) (hb : ∀ x ∈ b, 0 ≤ x) : ∀ k : Nat, k ≤ b.length →
    RunInv b (fcfs_after k (init_procs b)).1 ∧ 0 ≤ (fcfs_after k (init_procs b)).2 := by
  intro k
  induction k with
  | zero =>
    intro _
    exact ⟨init_procs_runInv b hb, le_refl 0⟩
  | succ k ih =>
    intro hk
    obtain ⟨h1, h2⟩ := ih (by omega)
    rw [fcfs_after_succ]
    have := fcfs_body_inv b (fcfs_after k (init_procs b)).1 (fcfs_after k (init_procs b)).2 k
      (by rw [h1.1]; omega) h1 h2
    exact ⟨this.1, this.2.1⟩

/-- A call of `run_proc` at a position `r` inside the table with an amount
between 1 and `burst_left[r]` keeps the invariant of the run and raises no
`burst_left`. -/
theorem run_proc_inv (b : List Int) (procs : List Pcb) (r : Nat) (a : Int)
    (hr : r < procs.length) (ha1 : 1 ≤ a) (ha2 : a ≤ (procs.getD r Pcb.zero).burst_left)
    (h : RunInv b procs) :
    RunInv b (run_proc procs (r : Int) a) ∧
    ∀ j : Nat, j < b.length →
      (rd (run_proc procs (r : Int) a) (j : Int)).burst_left ≤ (rd procs (j : Int)).burst_left := by
  obtain ⟨hlen, hrec⟩ := h
  have hpos : (procs.getD r Pcb.zero).burst_left > 0 := by omega
  refine ⟨⟨by rw [run_proc_length procs r hr, hlen], ?_⟩, ?_⟩
  · intro j hj
    obtain ⟨h1, h2, h3⟩ := hrec j hj
    rw [rd_natCast] at h1 h2 h3 ⊢
    rw [run_proc_getD procs r hr a hpos]
    by_cases hjr : j = r
    · subst hjr
      simp only [if_true]
      exact ⟨le_max_right _ _, h2, h3⟩
    · simp only [if_neg hjr]
      split_ifs
      · exact ⟨h1, by simp only; omega, h3⟩
      · exact ⟨h1, h2, h3⟩
  · intro j hj
    rw [rd_natCast, rd_natCast, run_proc_getD procs r hr a hpos]
    by_cases hjr : j = r
    · subst hjr
      simp only [if_true]
      omega
    · simp only [if_neg hjr]
      split_ifs <;> exact le_refl _

/-- Every state that the loop of `rr_run` with a positive quantum reaches
from a table of non-negative bursts has non-negative bursts, and every
property that the iterations preserve holds in it. -/
theorem rr_iter_inv (q : Int) (hq : 0 < q) (P : RRState → Prop)
    (hP : ∀ s s', RRGood s → P s → rr_step q s = some s' → P s') :
    ∀ (k : Nat) (s0 s : RRState), -1 ≤ s0.current →
      (∀ j : Nat, 0 ≤ (s0.procs.getD j Pcb.zero).burst_left) → P s0 →
      rr_iter q k s0 = some s →
        -1 ≤ s.current ∧ (∀ j : Nat, 0 ≤ (s.procs.getD j Pcb.zero).burst_left) ∧ P s := by
  intro k
  induction k with
  | zero =>
    intro s0 s hc hnn hp hs
    simp only [rr_iter, Option.some.injEq] at hs
    subst hs
    exact ⟨hc, hnn, hp⟩
  | succ k ih =>
    intro s0 s hc hnn hp hs
    cases hstep : rr_step q s0 with
    | none => simp [rr_iter, hstep] at hs
    | some s1 =>
      simp only [rr_iter, hstep] at hs
      have hg := rr_step_some_good q s0 s1 hc hnn hstep
      have hg1 := (rr_step_good q hq s0 s1 hg hstep).1
      exact ih s1 s hg1.2.1 hg1.2.2 (hP s0 s1 hg hp hstep) hs

theorem list_ext_getD (l1 l2 : List Pcb) (hlen : l1.length = l2.length)
    (h : ∀ j : Nat, l1.getD j Pcb.zero = l2.getD j Pcb.zero) : l1 = l2 := by
  apply List.ext_getElem hlen
  intro n h1 h2
  have := h n
  rwa [List.getD_eq_getElem _ _ h1, List.getD_eq_getElem _ _ h2] at this

theorem exists_pos_index (procs : List Pcb) (hex : ∃ p ∈ procs, p.burst_left > 0) :
    ∃ j : Nat, j < procs.length ∧ (procs.getD j Pcb.zero).burst_left > 0 := by
  obtain ⟨p, hp, hpos⟩ := hex
  obtain ⟨j, hj, rfl⟩ := List.mem_iff_getElem.mp hp
  exact ⟨j, hj, by rwa [List.getD_eq_getElem _ _ hj]⟩

theorem getD_mem_of_lt (procs : List Pcb) (j : Nat) (hj : j < procs.length) :
    procs.getD j Pcb.zero ∈ procs := by
  rw [List.getD_eq_getElem _ _ hj]
  exact List.getElem_mem hj

theorem wrap32_of_inInt32 (x : Int) (h : InInt32 x) : wrap32 x = x := by
  obtain ⟨h1, h2⟩ := h
  unfold wrap32
  omega

theorem run_proc_body32_at (c a : Int) (pre ps : List Pcb) (p : Pcb) :
    run_proc_body32 c a (pre ++ p :: ps) pre.length =
      pre ++ (if (pre.length : Int) ≠ c ∧ p.burst_left > 0 then
        { p with wait := wrap32 (p.wait + a) } else p) :: ps := by
  unfold run_proc_body32
  simp only [rd_natCast, wr_natCast, getD_append_cons, set_append_cons]
  split_ifs <;> rfl

theorem run_proc_fold_shift32 (c a : Int) (ps : List Pcb) : ∀ pre : List Pcb,
    ((List.range ps.length).map (· + pre.length)).foldl (run_proc_body32 c a) (pre ++ ps) =
      pre ++ creditWait32 c a pre.length ps := by
  induction ps with
  | nil => intro pre; simp [creditWait32]
  | cons p ps ih =>
    intro pre
    rw [List.length_cons, range_succ_shift, List.foldl_cons, run_proc_body32_at]
    have h := ih (pre ++ [if (pre.length : Int) ≠ c ∧ p.burst_left > 0 then
        { p with wait := wrap32 (p.wait + a) } else p])
    simp only [List.length_append, List.length_singleton, List.append_assoc,
      List.singleton_append] at h
    rw [h, creditWait32]

theorem run_proc_fold32 (c a : Int) (ps : List Pcb) :
    (List.range ps.length).foldl (run_proc_body32 c a) ps = creditWait32 c a 0 ps := by
  have h := run_proc_fold_shift32 c a ps []
  simpa using h

theorem creditWait32_length (c a : Int) (ps : List Pcb) :
    ∀ k : Nat, (creditWait32 c a k ps).length = ps.length := by
  induction ps with
  | nil => intro k; rfl
  | cons p ps ih => intro k; simp [creditWait32, ih]

theorem creditWait32_getD (c a : Int) (ps : List Pcb) : ∀ (k j : Nat),
    (creditWait32 c a k ps).getD j Pcb.zero =
      if ((k + j : Nat) : Int) ≠ c ∧ (ps.getD j Pcb.zero).burst_left > 0 then
        { ps.getD j Pcb.zero with wait := wrap32 ((ps.getD j Pcb.zero).wait + a) }
      else ps.getD j Pcb.zero := by
  induction ps with
  | nil => intro k j; simp [creditWait32, Pcb.zero]
  | cons p ps ih =>
    intro k j
    cases j with
    | zero => simp [creditWait32]
    | succ j =>
      simp only [creditWait32, List.getD_cons_succ, ih]
      have : k + 1 + j = k + (j + 1) := by omega
      rw [this]

theorem remaining_creditWait32 (c a : Int) (ps : List Pcb) :
    ∀ k : Nat, remaining (creditWait32 c a k ps) = remaining ps := by
  induction ps with
  | nil => intro k; rfl
  | cons p ps ih =>
    intro k
    have h := ih (k + 1)
    simp only [remaining] at h ⊢
    simp only [creditWait32, List.map_cons, List.sum_cons, h]
    split_ifs <;> rfl

/-- The table `run_proc` on 32-bit `int` leaves when the guard
`burst_left > 0` holds at a position inside the table. -/
theorem run_proc32_eq (procs : List Pcb) (c : Nat) (hc : c < procs.length) (a : Int)
    (hpos : (procs.getD c Pcb.zero).burst_left > 0) :
    run_proc32 procs (c : Int) a =
      creditWait32 (c : Int) a 0 (procs.set c { procs.getD c Pcb.zero with
        burst_left := max (wrap32 ((procs.getD c Pcb.zero).burst_left - a)) 0 }) := by
  unfold run_proc32
  simp only [rd_natCast, wr_natCast, hpos, if_true]
  have hset : ∀ q : Pcb, (procs.set c q).getD c Pcb.zero = q := by
    intro q; rw [getD_set_pcb procs c hc]; simp
  simp only [hset, List.set_set]
  by_cases hneg : wrap32 ((procs.getD c Pcb.zero).burst_left - a) < 0
  · have hmax : max (wrap32 ((procs.getD c Pcb.zero).burst_left - a)) 0 = 0 := by omega
    simp only [hneg, if_true, hmax]
    have hl : procs.length = (procs.set c { procs.getD c Pcb.zero with burst_left := 0 }).length := by
      simp
    conv_lhs => rw [hl]
    exact run_proc_fold32 _ _ _
  · have hmax : max (wrap32 ((procs.getD c Pcb.zero).burst_left - a)) 0 =
        wrap32 ((procs.getD c Pcb.zero).burst_left - a) := by omega
    simp only [hneg, if_false, hmax]
    have hl : procs.length = (procs.set c { procs.getD c Pcb.zero with
        burst_left := wrap32 ((procs.getD c Pcb.zero).burst_left - a) }).length := by
      simp
    conv_lhs => rw [hl]
    exact run_proc_fold32 _ _ _

theorem run_proc32_length (procs : List Pcb) (c : Nat) (hc : c < procs.length) (a : Int)
    (hpos : (procs.getD c Pcb.zero).burst_left > 0) :
    (run_proc32 procs (c : Int) a).length = procs.length := by
  rw [run_proc32_eq procs c hc a hpos, creditWait32_length, List.length_set]

theorem run_proc32_getD (procs : List Pcb) (c : Nat) (hc : c < procs.length) (a : Int)
    (hpos : (procs.getD c Pcb.zero).burst_left > 0) (j : Nat) :
    (run_proc32 procs (c : Int) a).getD j Pcb.zero =
      if j = c then { procs.getD c Pcb.zero with
          burst_left := max (wrap32 ((procs.getD c Pcb.zero).burst_left - a)) 0 }
      else if (procs.getD j Pcb.zero).burst_left > 0 then
        { procs.getD j Pcb.zero with wait := wrap32 ((procs.getD j Pcb.zero).wait + a) }
      else procs.getD j Pcb.zero := by
  rw [run_proc32_eq procs c hc a hpos, creditWait32_getD, getD_set_pcb procs c hc]
  by_cases hj : j = c
  · subst hj; simp
  · have : ¬ ((0 + j : Nat) : Int) = (c : Int) := by
      intro e; apply hj; omega
    simp [hj, this]

theorem remaining_run_proc32 (procs : List Pcb) (c : Nat) (hc : c < procs.length)
    (a : Int) (hpos : (procs.getD c Pcb.zero).burst_left > 0) :
    remaining (run_proc32 procs (c : Int) a) =
      remaining procs - (procs.getD c Pcb.zero).burst_left +
        max (wrap32 ((procs.getD c Pcb.zero).burst_left - a)) 0 := by
  rw [run_proc32_eq procs c hc a hpos, remaining_creditWait32, remaining_set procs _ c hc]

/-- One iteration of the loop of `rr_run` on 32-bit `int` with a quantum
`q ≤ 0`, on a table that has a record of positive burst: it does not `break`,
and it calls `run_proc` with the amount `q` at the position `rr_next` returns,
whose burst is positive. -/
theorem rr_step32_nonpos (q : Int) (hq : q ≤ 0) (s : RRState) (hc : -1 ≤ s.current)
    (hex : ∃ p ∈ s.procs, p.burst_left > 0) :
    ∃ r : Nat, r < s.procs.length ∧ (s.procs.getD r Pcb.zero).burst_left > 0 ∧
      rr_next s.current s.procs = (r : Int) ∧
      rr_step32 q s =
        some ⟨run_proc32 s.procs (r : Int) q, (r : Int), wrap32 (s.total_time + q)⟩ := by
  obtain ⟨j, hj, hjpos⟩ := exists_pos_index s.procs hex
  rcases rr_next_cases s.procs s.current (by omega) hc with ⟨_, h2⟩ | ⟨r, hr1, hr2, hr3, _⟩
  · have := h2 j hj
    rw [rd_natCast] at this
    exact absurd hjpos this
  · rw [rd_natCast] at hr3
    refine ⟨r, hr1, hr3, hr2, ?_⟩
    have hne : ¬ ((r : Int) = -1) := by omega
    have hrt : run_time q (s.procs.getD r Pcb.zero).burst_left = q := by
      unfold run_time
      rw [if_pos (by omega)]
    simp only [rr_step32, hr2, hne, if_false, rd_natCast, hrt]

/-- With the quantum 0 an iteration of the loop of `rr_run` on 32-bit `int`
leaves a table of `int` values and the total as they are. -/
theorem rr_step32_zero (s : RRState) (hc : -1 ≤ s.current)
    (hex : ∃ p ∈ s.procs, p.burst_left > 0)
    (hr : ∀ p ∈ s.procs, InInt32 p.burst_left ∧ InInt32 p.wait) (ht : InInt32 s.total_time) :
    ∃ r : Nat, r < s.procs.length ∧ rr_next s.current s.procs = (r : Int) ∧
      rr_step32 0 s = some ⟨s.procs, (r : Int), s.total_time⟩ := by
  obtain ⟨r, hr1, hr2, hr3, hstep⟩ := rr_step32_nonpos 0 (le_refl 0) s hc hex
  refine ⟨r, hr1, hr3, ?_⟩
  rw [hstep]
  have htab : run_proc32 s.procs (r : Int) 0 = s.procs := by
    apply list_ext_getD _ _ (run_proc32_length s.procs r hr1 0 hr2)
    intro j
    rw [run_proc32_getD s.procs r hr1 0 hr2]
    by_cases hjr : j = r
    · subst hjr
      simp only [if_true, sub_zero]
      rw [wrap32_of_inInt32 _ (hr _ (getD_mem_of_lt s.procs j hr1)).1]
      have : max (s.procs.getD j Pcb.zero).burst_left 0 = (s.procs.getD j Pcb.zero).burst_left := by
        omega
      rw [this]
    · simp only [if_neg hjr, add_zero]
      split_ifs with hpos
      · have hjlt : j < s.procs.length := by
          by_contra hge
          rw [List.getD_eq_default _ _ (by omega)] at hpos
          exact absurd hpos (by decide)
        rw [wrap32_of_inInt32 _ (hr _ (getD_mem_of_lt s.procs j hjlt)).2]
      · rfl
  rw [htab, add_zero, wrap32_of_inInt32 _ ht]

/-- With the quantum 0 the loop of `rr_run` on 32-bit `int` never reaches its
`break` on a table of `int` values that has a record of positive burst. -/
theorem rr_loop32_zero : ∀ (fuel : Nat) (s : RRState), -1 ≤ s.current →
    (∃ p ∈ s.procs, p.burst_left > 0) →
    (∀ p ∈ s.procs, InInt32 p.burst_left ∧ InInt32 p.wait) → InInt32 s.total_time →
    rr_loop32 0 fuel s = none := by
  intro fuel
  induction fuel with
  | zero => intro s _ _ _ _; rfl
  | succ fuel ih =>
    intro s hc hex hr ht
    obtain ⟨r, _, _, hstep⟩ := rr_step32_zero s hc hex hr ht
    simp only [rr_loop32, hstep]
    exact ih ⟨s.procs, (r : Int), s.total_time⟩ (by simp only; omega) hex hr ht

/-! ## The properties of the specification -/

/-- C1: for every non-empty sequence `b` of non-negative burst times,
`fcfs_run` on the table `init_procs b` returns `sum b` as total time. -/
theorem fcfs_run_total_eq_sum (b : List Int) (hne : b ≠ []) (hb : ∀ x ∈ b, 0 ≤ x) :
    (fcfs_run (init_procs b)).2 = b.sum := by
  have _ := hne
  rw [fcfs_run_eq_list, fcfs_list_total, elapsedBefore_init b hb, init_procs_length,
    List.take_length]
  simp

/-- Witness of C1 at the bursts `[5, 8, 2]`, whose total is 15. -/
theorem fcfs_run_total_eq_sum_witness :
    ([5, 8, 2] : List Int) ≠ [] ∧ (∀ x ∈ ([5, 8, 2] : List Int), 0 ≤ x) ∧
      (fcfs_run (init_procs [5, 8, 2])).2 = 15 :=
  ⟨by decide, by decide, fcfs_run_total_eq_sum [5, 8, 2] (by decide) (by decide)⟩

/-- C2 as stated fails: on the bursts `[5, 0]` the record at position 1 is
skipped by the guard of `fcfs_run` and keeps wait 0, while the burst before it
is 5. -/
theorem fcfs_run_wait_zero_burst_counterexample :
    ¬ ∀ (b : List Int), b ≠ [] → (∀ x ∈ b, 0 ≤ x) → ∀ i : Nat, i < b.length →
      (rd (fcfs_run (init_procs b)).1 (i : Int)).wait = (b.take i).sum := by
  intro h
  have h1 := h [5, 0] (by decide) (by decide) 1 (by decide)
  revert h1
  decide

/-- C2, amended: for every non-empty sequence `b` of non-negative burst times
and every position `i`, after `fcfs_run` on `init_procs b` the wait of record
`i` is `b[0] + ... + b[i-1]` when `b[i] > 0`, and `0` when `b[i] = 0`. -/
theorem fcfs_run_wait_eq (b : List Int) (hne : b ≠ []) (hb : ∀ x ∈ b, 0 ≤ x)
    (i : Nat) (hi : i < b.length) :
    (rd (fcfs_run (init_procs b)).1 (i : Int)).wait =
      if b.getD i 0 > 0 then (b.take i).sum else 0 := by
  have _ := hne
  rw [fcfs_run_eq_list, rd_natCast, fcfs_list_getD, init_procs_getD b i hi,
    elapsedBefore_init b hb]
  dsimp only
  split_ifs <;> simp

/-- Witness of amended C2 at the bursts `[5, 8, 2]` and position 2, where the
wait is `5 + 8`. -/
theorem fcfs_run_wait_eq_witness :
    ([5, 8, 2] : List Int) ≠ [] ∧ (∀ x ∈ ([5, 8, 2] : List Int), 0 ≤ x) ∧
      2 < ([5, 8, 2] : List Int).length ∧
      (rd (fcfs_run (init_procs [5, 8, 2])).1 ((2 : Nat) : Int)).wait = 13 :=
  ⟨by decide, by decide, by decide,
    fcfs_run_wait_eq [5, 8, 2] (by decide) (by decide) 2 (by decide)⟩

/-- C3: for every non-empty sequence `b` of non-negative burst times and
every quantum `q > 0`, `rr_run` on the table `init_procs b` reaches its
`break` (within `sum b + 1` iterations of its loop) and returns `sum b` as
total time. -/
theorem rr_run_total_eq_sum (b : List Int) (hne : b ≠ []) (hb : ∀ x ∈ b, 0 ≤ x)
    (q : Int) (hq : 0 < q) (fuel : Nat) (hf : b.sum < (fuel : Int)) :
    ∃ procs' : List Pcb, rr_run fuel (init_procs b) q = some (procs', b.sum) := by
  obtain ⟨sf, h1, h2, h3, h4⟩ :=
    rr_loop_inv q hq (fun s => s.total_time + remaining s.procs = b.sum)
      (by
        intro s s' hg hp hs
        obtain ⟨_, _, r, a, _, _, _, _, _, _, _, _, ht, hrem⟩ := rr_step_good q hq s s' hg hs
        omega)
      fuel ⟨init_procs b, 0, 0⟩ (rr_init_good b hne hb)
      (by simp only [remaining_init_procs]; omega)
      (by simp only [remaining_init_procs]; exact hf)
  have hz : remaining sf.procs = 0 :=
    remaining_eq_zero sf.procs (fun j _ => rr_break_complete q sf h2 h4 j)
  refine ⟨sf.procs, ?_⟩
  rw [rr_run, h1]
  have : sf.total_time = b.sum := by omega
  rw [this]

/-- Witness of C3 at the bursts `[5, 8, 2]` with quantum 4 and 16 iterations. -/
theorem rr_run_total_eq_sum_witness :
    ([5, 8, 2] : List Int) ≠ [] ∧ (∀ x ∈ ([5, 8, 2] : List Int), 0 ≤ x) ∧ (0 : Int) < 4 ∧
    ([5, 8, 2] : List Int).sum < ((16 : Nat) : Int) ∧
    ∃ procs' : List Pcb, rr_run 16 (init_procs [5, 8, 2]) 4 =
      some (procs', ([5, 8, 2] : List Int).sum) :=
  ⟨by decide, by decide, by decide, by decide,
    rr_run_total_eq_sum [5, 8, 2] (by decide) (by decide) 4 (by decide) 16 (by decide)⟩

/-- C4, evaluated on the code: for bursts `[5, 8, 2]` and quantum 4, `rr_run`
returns total time 15, but because it enters its loop with `current = 0` its
ticks are P1(4), P2(2), P0(4), P1(4), P0(1) and the final waits are
`[10, 6, 4]`.  The trace P0(4), P1(4), P2(2), P0(1), P1(4) with waits
`[6, 7, 8]` is the one the same loop produces when entered with
`current = -1`. -/
theorem rr_run_trace_5_8_2 :
    rr_ticks 4 16 ⟨init_procs [5, 8, 2], 0, 0⟩ = [(1, 4), (2, 2), (0, 4), (1, 4), (0, 1)] ∧
    (rr_run 16 (init_procs [5, 8, 2]) 4).map (fun r => (r.1.map Pcb.wait, r.2)) =
      some ([10, 6, 4], 15) ∧
    rr_ticks 4 16 ⟨init_procs [5, 8, 2], -1, 0⟩ = [(0, 4), (1, 4), (2, 2), (0, 1), (1, 4)] ∧
    (rr_loop 4 16 ⟨init_procs [5, 8, 2], -1, 0⟩).map (fun r => (r.1.map Pcb.wait, r.2)) =
      some ([6, 7, 8], 15) := by
  decide

/-- C5, evaluated on the code: on the fresh table of the bursts `[5, 8, 2]`
record 0 has `burst_left > 0`, yet the first selection of `rr_run`, which is
`rr_next 0 procs`, is position 1: the first scan starts at position 1. -/
theorem rr_run_first_selection_is_one :
    (rd (init_procs [5, 8, 2]) 0).burst_left > 0 ∧
    rr_next 0 (init_procs [5, 8, 2]) = 1 ∧
    (rr_step 4 ⟨init_procs [5, 8, 2], 0, 0⟩).map RRState.current = some 1 ∧
    (rr_ticks 4 16 ⟨init_procs [5, 8, 2], 0, 0⟩).head? = some (1, 4) := by
  decide

/-- C6, evaluated on the code: for the invocation `fcfs 5 8 2` the final
waits are `[0, 5, 13]`, whose average is 6, but `main` divides the value
returned by `fcfs_run`, the total time 15, by the number of processes and
reports 5. -/
theorem main_reports_total_time_average :
    main 0 ["parta_main", "fcfs", "5", "8", "2"] = some (MainResult.average 5) ∧
    (fcfs_run (init_procs [5, 8, 2])).1.map Pcb.wait = [0, 5, 13] ∧
    ((((fcfs_run (init_procs [5, 8, 2])).1.map Pcb.wait).sum : Int) : Rat) /
      (((init_procs [5, 8, 2]).length : Nat) : Rat) = 6 := by
  have h : main 0 ["parta_main", "fcfs", "5", "8", "2"] =
      some (MainResult.average (((15 : Int) : Rat) / ((3 : Nat) : Rat))) := by
    rfl
  have hw : (fcfs_run (init_procs [5, 8, 2])).1.map Pcb.wait = [0, 5, 13] := by decide
  have hl : (init_procs [5, 8, 2]).length = 3 := by decide
  refine ⟨?_, hw, ?_⟩
  · rw [h]
    norm_num
  · rw [hw, hl]
    norm_num

/-- C7: for every non-empty sequence `b` of non-negative burst times, every
quantum `q > 0` and every position `i`, `rr_run` on `init_procs b` returns and
leaves record `i` with a wait of at most `sum b - b[i]`, the bursts of all
other records. -/
theorem rr_run_wait_le_others (b : List Int) (hne : b ≠ []) (hb : ∀ x ∈ b, 0 ≤ x)
    (q : Int) (hq : 0 < q) (i : Nat) (hi : i < b.length)
    (fuel : Nat) (hf : b.sum < (fuel : Int)) :
    ∃ (procs' : List Pcb) (t : Int), rr_run fuel (init_procs b) q = some (procs', t) ∧
      (rd procs' (i : Int)).wait ≤ b.sum - b.getD i 0 := by
  obtain ⟨sf, h1, h2, h3, h4⟩ :=
    rr_loop_inv q hq
      (fun s => (s.procs.getD i Pcb.zero).wait +
        (remaining s.procs - (s.procs.getD i Pcb.zero).burst_left) ≤ b.sum - b.getD i 0)
      (by
        intro s s' hg hp hs
        obtain ⟨_, _, r, a, hr, ha1, ha2, _, _, _, hpr, _, _, hrem⟩ :=
          rr_step_good q hq s s' hg hs
        rw [hrem, hpr, run_proc_getD s.procs r hr a (by omega)]
        by_cases hir : i = r
        · subst hir
          simp only [if_true]
          have : max ((s.procs.getD i Pcb.zero).burst_left - a) 0 =
              (s.procs.getD i Pcb.zero).burst_left - a := by omega
          rw [this]
          omega
        · simp only [if_neg hir]
          split_ifs
          · simp only; omega
          · have := hg.2.2 i
            omega)
      fuel ⟨init_procs b, 0, 0⟩ (rr_init_good b hne hb)
      (by simp only [remaining_init_procs, init_procs_getD b i hi]; omega)
      (by simp only [remaining_init_procs]; exact hf)
  have hz : remaining sf.procs = 0 :=
    remaining_eq_zero sf.procs (fun j _ => rr_break_complete q sf h2 h4 j)
  have hi0 := rr_break_complete q sf h2 h4 i
  refine ⟨sf.procs, sf.total_time, by rw [rr_run, h1], ?_⟩
  rw [rd_natCast]
  omega

/-- Witness of C7 at the bursts `[5, 8, 2]`, quantum 4, position 0: the wait
of record 0 is at most `8 + 2`. -/
theorem rr_run_wait_le_others_witness :
    ([5, 8, 2] : List Int) ≠ [] ∧ (∀ x ∈ ([5, 8, 2] : List Int), 0 ≤ x) ∧ (0 : Int) < 4 ∧
    0 < ([5, 8, 2] : List Int).length ∧ ([5, 8, 2] : List Int).sum < ((16 : Nat) : Int) ∧
    ∃ (procs' : List Pcb) (t : Int), rr_run 16 (init_procs [5, 8, 2]) 4 = some (procs', t) ∧
      (rd procs' ((0 : Nat) : Int)).wait ≤
        ([5, 8, 2] : List Int).sum - ([5, 8, 2] : List Int).getD 0 0 :=
  ⟨by decide, by decide, by decide, by decide, by decide,
    rr_run_wait_le_others [5, 8, 2] (by decide) (by decide) 4 (by decide) 0 (by decide) 16
      (by decide)⟩

/-- C8: for every table, every position `c` inside it with `burst_left > 0`
and every amount `a` (in particular every `a ≥ 0`), `run_proc` sets
`burst_left[c]` to `max (burst_left[c] - a) 0`, adds `a` to the wait of every
other record whose `burst_left` is positive, and changes nothing else: not the
wait of `c`, not the wait of a completed record, not the `burst_left` of
another record, no `pid`, and not the length of the table. -/
theorem run_proc_frame (procs : List Pcb) (c : Nat) (hc : c < procs.length) (a : Int)
    (hpos : (rd procs (c : Int)).burst_left > 0) :
    (run_proc procs (c : Int) a).length = procs.length ∧
    (rd (run_proc procs (c : Int) a) (c : Int)).burst_left =
      max ((rd procs (c : Int)).burst_left - a) 0 ∧
    (rd (run_proc procs (c : Int) a) (c : Int)).wait = (rd procs (c : Int)).wait ∧
    (∀ i : Nat, i < procs.length → i ≠ c →
      (rd (run_proc procs (c : Int) a) (i : Int)).wait =
          (if (rd procs (i : Int)).burst_left > 0 then (rd procs (i : Int)).wait + a
            else (rd procs (i : Int)).wait) ∧
        (rd (run_proc procs (c : Int) a) (i : Int)).burst_left =
          (rd procs (i : Int)).burst_left) ∧
    (∀ i : Nat, i < procs.length →
      (rd (run_proc procs (c : Int) a) (i : Int)).pid = (rd procs (i : Int)).pid) := by
  rw [rd_natCast] at hpos
  refine ⟨run_proc_length procs c hc a, ?_, ?_, ?_, ?_⟩
  · simp only [rd_natCast, run_proc_getD procs c hc a hpos, if_true]
  · simp only [rd_natCast, run_proc_getD procs c hc a hpos, if_true]
  · intro i _ hic
    simp only [rd_natCast, run_proc_getD procs c hc a hpos, if_neg hic]
    constructor <;> split_ifs <;> rfl
  · intro i _
    simp only [rd_natCast, run_proc_getD procs c hc a hpos]
    split_ifs with h1 h2
    · rw [h1]
    · rfl
    · rfl

/-- Witness of C8: on the fresh table of the bursts `[5, 8, 2]`, running
position 0 for 4 leaves it 1 unit of burst and credits 4 to the two others. -/
theorem run_proc_frame_witness :
    0 < (init_procs [5, 8, 2]).length ∧
    (rd (init_procs [5, 8, 2]) ((0 : Nat) : Int)).burst_left > 0 ∧
    (run_proc (init_procs [5, 8, 2]) ((0 : Nat) : Int) 4).map
      (fun p => (p.pid, p.burst_left, p.wait)) = [(0, 1, 0), (1, 8, 4), (2, 2, 4)] ∧
    (rd (run_proc (init_procs [5, 8, 2]) ((0 : Nat) : Int) 4) ((0 : Nat) : Int)).burst_left =
      max ((rd (init_procs [5, 8, 2]) ((0 : Nat) : Int)).burst_left - 4) 0 :=
  ⟨by decide, by decide, by decide,
    (run_proc_frame (init_procs [5, 8, 2]) 0 (by decide) 4 (by decide)).2.1⟩

/-- C9: for every table, every position `c` inside it with
`burst_left[c] = 0` and every amount `a`, `run_proc` is a no-op: the table
after the call is the table before it. -/
theorem run_proc_completed_noop (procs : List Pcb) (c : Nat) (hc : c < procs.length)
    (a : Int) (h0 : (rd procs (c : Int)).burst_left = 0) :
    run_proc procs (c : Int) a = procs := by
  have _ := hc
  exact run_proc_skip procs (c : Int) a (by rw [h0]; decide)

/-- Witness of C9: on the table of the bursts `[0, 8, 2]`, running the
completed position 0 for 4 changes nothing. -/
theorem run_proc_completed_noop_witness :
    0 < (init_procs [0, 8, 2]).length ∧
    (rd (init_procs [0, 8, 2]) ((0 : Nat) : Int)).burst_left = 0 ∧
    run_proc (init_procs [0, 8, 2]) ((0 : Nat) : Int) 4 = init_procs [0, 8, 2] :=
  ⟨by decide, by decide,
    run_proc_completed_noop (init_procs [0, 8, 2]) 0 (by decide) 4 (by decide)⟩

/-- C10: for every table of size `n ≥ 1` and every `current` with
`-1 ≤ current < n`, `rr_next` returns `-1` if and only if no record has
`burst_left > 0`; otherwise it returns a valid index in `[0, n)`, namely the
first position with `burst_left > 0` in the circular order
`current + 1, ..., current + n` (mod `n`). -/
theorem rr_next_spec (procs : List Pcb) (current : Int) (hn : 1 ≤ procs.length)
    (hlo : -1 ≤ current) (hhi : current < (procs.length : Int)) :
    (rr_next current procs = -1 ↔
      ∀ p : Nat, p < procs.length → ¬ (rd procs (p : Int)).burst_left > 0) ∧
    (rr_next current procs ≠ -1 →
      0 ≤ rr_next current procs ∧ rr_next current procs < (procs.length : Int) ∧
      ∃ j : Nat, 1 ≤ j ∧ j ≤ procs.length ∧
        rr_next current procs = (current + (j : Int)) % (procs.length : Int) ∧
        (rd procs (rr_next current procs)).burst_left > 0 ∧
        ∀ j' : Nat, 1 ≤ j' → j' < j →
          ¬ (rd procs ((current + (j' : Int)) % (procs.length : Int))).burst_left > 0) := by
  have _ := hhi
  rcases rr_next_cases procs current hn hlo with ⟨h1, h2⟩ | ⟨r, hr1, hr2, hr3, j, hj1, hj2, hj3, hj4⟩
  · exact ⟨⟨fun _ => h2, fun _ => h1⟩, fun h => absurd h1 h⟩
  · refine ⟨⟨?_, ?_⟩, ?_⟩
    · intro h
      rw [hr2] at h
      omega
    · intro h
      exact absurd hr3 (h r hr1)
    · intro _
      rw [hr2]
      exact ⟨by omega, by omega, j, hj1, hj2, hj3, hr3, hj4⟩

/-- Witness of C10: on the table with bursts `[0, 8, 2]` entered with
`current = 1`, the scan visits 2, 0, 1 and returns position 2. -/
theorem rr_next_spec_witness :
    1 ≤ (init_procs [0, 8, 2]).length ∧ (-1 : Int) ≤ 1 ∧
    (1 : Int) < ((init_procs [0, 8, 2]).length : Int) ∧
    rr_next 1 (init_procs [0, 8, 2]) = 2 ∧
    (rr_next 1 (init_procs [0, 8, 2]) = -1 ↔
      ∀ p : Nat, p < (init_procs [0, 8, 2]).length →
        ¬ (rd (init_procs [0, 8, 2]) (p : Int)).burst_left > 0) :=
  ⟨by decide, by decide, by decide, by decide,
    (rr_next_spec (init_procs [0, 8, 2]) 1 (by decide) (by decide) (by decide)).1⟩

/-- C11: for every non-empty sequence `b` of non-negative burst times,
`fcfs_run` on `init_procs b` leaves a table of the same `n` records in which
every record has `burst_left = 0`, and for every quantum `q > 0` `rr_run` on
`init_procs b` returns and leaves a table of the same `n` records in which
every record has `burst_left = 0`. -/
theorem runs_complete_all (b : List Int) (hne : b ≠ []) (hb : ∀ x ∈ b, 0 ≤ x) :
    ((fcfs_run (init_procs b)).1.length = b.length ∧
      (∀ p ∈ (fcfs_run (init_procs b)).1, p.burst_left = 0) ∧
      ∀ i : Nat, i < b.length → (rd (fcfs_run (init_procs b)).1 (i : Int)).burst_left = 0) ∧
    (∀ (q : Int) (fuel : Nat), 0 < q → b.sum < (fuel : Int) →
      ∃ (procs' : List Pcb) (t : Int), rr_run fuel (init_procs b) q = some (procs', t) ∧
        procs'.length = b.length ∧ (∀ p ∈ procs', p.burst_left = 0) ∧
        ∀ i : Nat, i < b.length → (rd procs' (i : Int)).burst_left = 0) := by
  constructor
  · have hget : ∀ i : Nat, ((fcfs_run (init_procs b)).1.getD i Pcb.zero).burst_left = 0 := by
      intro i
      rw [fcfs_run_eq_list, fcfs_list_getD]
      have h0 := init_procs_getD_burst_nonneg b hb i
      split_ifs with h
      · rfl
      · omega
    refine ⟨?_, ?_, ?_⟩
    · rw [fcfs_run_eq_list, fcfs_list_length, init_procs_length]
    · exact mem_burst_of_getD _ (fun x => x = 0) (fun j _ => hget j)
    · intro i _
      rw [rd_natCast]
      exact hget i
  · intro q fuel hq hf
    obtain ⟨sf, h1, h2, h3, h4⟩ :=
      rr_loop_inv q hq (fun s => s.procs.length = b.length)
        (by
          intro s s' hg hp hs
          obtain ⟨_, hlen, _⟩ := rr_step_good q hq s s' hg hs
          rw [hlen]
          exact hp)
        fuel ⟨init_procs b, 0, 0⟩ (rr_init_good b hne hb) (init_procs_length b)
        (by simp only [remaining_init_procs]; exact hf)
    refine ⟨sf.procs, sf.total_time, by rw [rr_run, h1], h3, ?_, ?_⟩
    · exact mem_burst_of_getD _ (fun x => x = 0) (fun j _ => rr_break_complete q sf h2 h4 j)
    · intro i _
      rw [rd_natCast]
      exact rr_break_complete q sf h2 h4 i

/-- Witness of C11 at the bursts `[5, 8, 2]`: after `fcfs_run` the table has
3 records and every one is complete. -/
theorem runs_complete_all_witness :
    ([5, 8, 2] : List Int) ≠ [] ∧ (∀ x ∈ ([5, 8, 2] : List Int), 0 ≤ x) ∧
    (fcfs_run (init_procs [5, 8, 2])).1.length = ([5, 8, 2] : List Int).length ∧
    (∀ p ∈ (fcfs_run (init_procs [5, 8, 2])).1, p.burst_left = 0) :=
  ⟨by decide, by decide,
    (runs_complete_all [5, 8, 2] (by decide) (by decide)).1.1,
    (runs_complete_all [5, 8, 2] (by decide) (by decide)).1.2.1⟩

/-- C12: for every single-element burst sequence `[x]` with `x ≥ 0` and every
quantum `q > 0`, `fcfs_run` and `rr_run` on `init_procs [x]` both return `x`
as total time and leave the only record with wait 0, and every tick of
`rr_run` selects position 0. -/
theorem single_process_runs (x : Int) (hx : 0 ≤ x) (q : Int) (hq : 0 < q) :
    (fcfs_run (init_procs [x])).2 = x ∧
    (rd (fcfs_run (init_procs [x])).1 0).wait = 0 ∧
    (∀ fuel : Nat, x < (fuel : Int) →
      ∃ procs' : List Pcb, rr_run fuel (init_procs [x]) q = some (procs', x) ∧
        (rd procs' 0).wait = 0) ∧
    (∀ fuel : Nat, ∀ t ∈ rr_ticks q fuel ⟨init_procs [x], 0, 0⟩, t.1 = 0) := by
  have hne : [x] ≠ [] := by simp
  have hb : ∀ y ∈ [x], 0 ≤ y := by
    intro y hy
    simp only [List.mem_singleton] at hy
    omega
  have hinit : init_procs [x] = [⟨0, x, 0⟩] := by
    simp [init_procs, List.range_succ]
  refine ⟨?_, ?_, ?_, ?_⟩
  · rw [fcfs_run_eq_list, hinit]
    by_cases h : x > 0 <;> simp [fcfs_list, h]
    omega
  · rw [fcfs_run_eq_list, hinit]
    by_cases h : x > 0 <;> simp [fcfs_list, h, rd]
  · intro fuel hf
    obtain ⟨sf, h1, h2, h3, h4⟩ :=
      rr_loop_inv q hq
        (fun s => s.total_time + remaining s.procs = x ∧ s.procs.length = 1 ∧
          (s.procs.getD 0 Pcb.zero).wait = 0)
        (by
          intro s s' hg hp hs
          obtain ⟨_, hlen, r, a, hr, _, ha2, _, _, _, hpr, _, ht, hrem⟩ :=
            rr_step_good q hq s s' hg hs
          obtain ⟨hp1, hp2, hp3⟩ := hp
          have hr0 : r = 0 := by omega
          subst hr0
          refine ⟨by omega, by omega, ?_⟩
          rw [hpr, run_proc_getD s.procs 0 hr a (by omega)]
          simp only [if_true]
          exact hp3)
        fuel ⟨init_procs [x], 0, 0⟩ (rr_init_good [x] hne hb)
        (by simp [hinit, remaining])
        (by simp only [remaining_init_procs]; simpa using hf)
    have hz : remaining sf.procs = 0 :=
      remaining_eq_zero sf.procs (fun j _ => rr_break_complete q sf h2 h4 j)
    obtain ⟨h31, _, h33⟩ := h3
    have ht : sf.total_time = x := by omega
    refine ⟨sf.procs, by rw [rr_run, h1, ht], ?_⟩
    have : rd sf.procs 0 = sf.procs.getD 0 Pcb.zero := rd_natCast sf.procs 0
    rw [this]
    exact h33
  · intro fuel t ht
    exact rr_ticks_single q hq fuel ⟨init_procs [x], 0, 0⟩ (rr_init_good [x] hne hb)
      (by simp [hinit]) t ht

/-- Witness of C12 at the single burst 7 with quantum 3. -/
theorem single_process_runs_witness :
    (0 : Int) ≤ 7 ∧ (0 : Int) < 3 ∧ (fcfs_run (init_procs [7])).2 = 7 ∧
    (rr_run 8 (init_procs [7]) 3).map (fun r => (r.1.map Pcb.wait, r.2)) = some ([0], 7) :=
  ⟨by decide, by decide, (single_process_runs 7 (by decide) 3 (by decide)).1, by decide⟩

/-- C13: for every table in which every record has `burst_left = 0`,
`fcfs_run` and `rr_run` with any quantum return total time 0 and leave the
table unchanged; in particular on `init_procs [0, 0, 0]` both return 0 with
all waits 0. -/
theorem all_zero_runs (procs : List Pcb) (h0 : ∀ p ∈ procs, p.burst_left = 0) :
    fcfs_run procs = (procs, 0) ∧
    (∀ (q : Int) (fuel : Nat), rr_run (fuel + 1) procs q = some (procs, 0)) ∧
    (fcfs_run (init_procs [0, 0, 0])).2 = 0 ∧
    (fcfs_run (init_procs [0, 0, 0])).1.map Pcb.wait = [0, 0, 0] ∧
    (∀ q : Int, (rr_run 1 (init_procs [0, 0, 0]) q).map (fun r => (r.1.map Pcb.wait, r.2)) =
      some ([0, 0, 0], 0)) := by
  have hnp : ∀ (ps : List Pcb), (∀ p ∈ ps, p.burst_left = 0) →
      ∀ p ∈ ps, ¬ p.burst_left > 0 := by
    intro ps hps p hp
    rw [hps p hp]
    decide
  have hrr : ∀ (ps : List Pcb), (∀ p ∈ ps, p.burst_left = 0) →
      ∀ (q : Int) (fuel : Nat), rr_run (fuel + 1) ps q = some (ps, 0) := by
    intro ps hps q fuel
    have hstep : rr_step q ⟨ps, 0, 0⟩ = none := by
      simp [rr_step, rr_next_none ps 0 (hnp ps hps)]
    simp [rr_run, rr_loop, hstep]
  have hz : ∀ p ∈ init_procs [0, 0, 0], p.burst_left = 0 := by decide
  refine ⟨?_, hrr procs h0, by decide, by decide, ?_⟩
  · rw [fcfs_run_eq_list, fcfs_list_skip_all procs (hnp procs h0)]
  · intro q
    rw [hrr _ hz q 0]
    decide

/-- Witness of C13 at the table of the bursts `[0, 0, 0]`. -/
theorem all_zero_runs_witness :
    (∀ p ∈ init_procs [0, 0, 0], p.burst_left = 0) ∧
    fcfs_run (init_procs [0, 0, 0]) = (init_procs [0, 0, 0], 0) :=
  ⟨by decide, (all_zero_runs (init_procs [0, 0, 0]) (by decide)).1⟩

/-- C14, evaluated on the code: for the bursts `[5, 8, 2]` and the quantum 8,
which is at least every burst, `rr_run` and `fcfs_run` return the same total
time 15, but `rr_run`, entered with `current = 0`, runs the positions in the
order 1, 2, 0 and leaves the waits `[10, 0, 8]`, while `fcfs_run` leaves
`[0, 5, 13]`.  The loop of `rr_run` entered with `current = -1` leaves the
waits of `fcfs_run`. -/
theorem rr_large_quantum_vs_fcfs :
    (∀ x ∈ ([5, 8, 2] : List Int), x ≤ 8) ∧
    (rr_run 16 (init_procs [5, 8, 2]) 8).map (fun r => (r.1.map Pcb.wait, r.2)) =
      some ([10, 0, 8], 15) ∧
    rr_ticks 8 16 ⟨init_procs [5, 8, 2], 0, 0⟩ = [(1, 8), (2, 2), (0, 5)] ∧
    ((fcfs_run (init_procs [5, 8, 2])).1.map Pcb.wait, (fcfs_run (init_procs [5, 8, 2])).2) =
      ([0, 5, 13], 15) ∧
    (rr_loop 8 16 ⟨init_procs [5, 8, 2], -1, 0⟩).map (fun r => (r.1.map Pcb.wait, r.2)) =
      some ([0, 5, 13], 15) := by
  decide

/-- C15: for every burst sequence `b` of length `n`, `init_procs b` is a
table of exactly `n` records whose record at position `i` has `pid = i`,
`burst_left = b[i]` and `wait = 0`; building it from the same `b` again gives
the same table. -/
theorem init_procs_spec (b : List Int) :
    (init_procs b).length = b.length ∧
    (∀ i : Nat, i < b.length →
      (rd (init_procs b) (i : Int)).pid = (i : Int) ∧
      (rd (init_procs b) (i : Int)).burst_left = b.getD i 0 ∧
      (rd (init_procs b) (i : Int)).wait = 0) ∧
    (∀ b' : List Int, b' = b → init_procs b' = init_procs b) := by
  refine ⟨init_procs_length b, ?_, ?_⟩
  · intro i hi
    rw [rd_natCast, init_procs_getD b i hi]
    exact ⟨rfl, rfl, rfl⟩
  · intro b' h
    rw [h]

/-- Witness of C15 at the bursts `[5, 8, 2]` and position 1. -/
theorem init_procs_spec_witness :
    1 < ([5, 8, 2] : List Int).length ∧
    (rd (init_procs [5, 8, 2]) ((1 : Nat) : Int)).pid = ((1 : Nat) : Int) ∧
    (rd (init_procs [5, 8, 2]) ((1 : Nat) : Int)).burst_left = ([5, 8, 2] : List Int).getD 1 0 ∧
    (rd (init_procs [5, 8, 2]) ((1 : Nat) : Int)).wait = 0 :=
  ⟨by decide, (init_procs_spec [5, 8, 2]).2.1 1 (by decide)⟩

/-- C16: for every table of non-negative bursts and every quantum `q > 0`,
`rr_run` returns (its loop reaches the `break` within `remaining + 1`
iterations); each iteration that selects a process decreases the total
remaining burst by its run time, which is at least 1; and the number of ticks
is at most the total burst of the table. -/
theorem rr_run_terminates (procs : List Pcb) (hnn : ∀ p ∈ procs, 0 ≤ p.burst_left)
    (q : Int) (hq : 0 < q) :
    (∀ fuel : Nat, remaining procs < (fuel : Int) → ∃ r, rr_run fuel procs q = some r) ∧
    (∀ s s' : RRState, -1 ≤ s.current → (∀ p ∈ s.procs, 0 ≤ p.burst_left) →
      rr_step q s = some s' →
        1 ≤ s'.total_time - s.total_time ∧
        remaining s'.procs = remaining s.procs - (s'.total_time - s.total_time) ∧
        (∀ p ∈ s'.procs, 0 ≤ p.burst_left)) ∧
    (∀ fuel : Nat, ((rr_ticks q fuel ⟨procs, 0, 0⟩).length : Int) ≤ remaining procs) := by
  refine ⟨?_, ?_, ?_⟩
  · intro fuel hf
    exact rr_loop_terminates q hq fuel ⟨procs, 0, 0⟩ (by simp only; omega)
      (getD_burst_nonneg_of_mem procs hnn) hf
  · intro s s' hc hs hstep
    have hg := rr_step_some_good q s s' hc (getD_burst_nonneg_of_mem s.procs hs) hstep
    obtain ⟨hg', _, r, a, _, ha1, _, _, _, _, _, _, ht, hrem⟩ := rr_step_good q hq s s' hg hstep
    refine ⟨by omega, by rw [hrem, ht]; ring, ?_⟩
    exact mem_burst_of_getD s'.procs (fun x => 0 ≤ x) (fun j _ => hg'.2.2 j)
  · intro fuel
    exact rr_ticks_length_le q hq fuel ⟨procs, 0, 0⟩ (by simp only; omega)
      (getD_burst_nonneg_of_mem procs hnn)

/-- Witness of C16 on the table of the bursts `[5, 8, 2]` with quantum 4:
`rr_run` returns within 16 iterations. -/
theorem rr_run_terminates_witness :
    (∀ p ∈ init_procs [5, 8, 2], 0 ≤ p.burst_left) ∧ (0 : Int) < 4 ∧
    remaining (init_procs [5, 8, 2]) < ((16 : Nat) : Int) ∧
    ∃ r, rr_run 16 (init_procs [5, 8, 2]) 4 = some r :=
  ⟨by decide, by decide, by decide,
    (rr_run_terminates (init_procs [5, 8, 2]) (by decide) 4 (by decide)).1 16 (by decide)⟩

/-- C17: for every table and every position `i` inside it whose `burst_left`
is 0 at the start, `fcfs_run` leaves record `i` as it was (in particular its
wait keeps its initial value) and returns the total it returns on the table
without that record. -/
theorem fcfs_run_skips_zero (procs : List Pcb) (i : Nat) (hi : i < procs.length)
    (h0 : (rd procs (i : Int)).burst_left = 0) :
    rd (fcfs_run procs).1 (i : Int) = rd procs (i : Int) ∧
    (fcfs_run (procs.eraseIdx i)).2 = (fcfs_run procs).2 := by
  have _ := hi
  rw [rd_natCast] at h0
  have hnp : ¬ (procs.getD i Pcb.zero).burst_left > 0 := by rw [h0]; decide
  constructor
  · rw [fcfs_run_eq_list, rd_natCast, rd_natCast, fcfs_list_getD, if_neg hnp]
  · rw [fcfs_run_eq_list, fcfs_run_eq_list, fcfs_list_total, fcfs_list_total,
      elapsedBefore_eraseIdx procs i hnp]

/-- Witness of C17 on the fresh table of the bursts `[5, 0, 2]`: record 1
keeps wait 0 although record 0 has burst 5, and the total is the total for the
bursts `[5, 2]`. -/
theorem fcfs_run_skips_zero_witness :
    1 < (init_procs [5, 0, 2]).length ∧
    (rd (init_procs [5, 0, 2]) ((1 : Nat) : Int)).burst_left = 0 ∧
    (rd (init_procs [5, 0, 2]) ((1 : Nat) : Int)).wait = 0 ∧
    (fcfs_run (init_procs [5, 0, 2])).2 = 7 ∧
    rd (fcfs_run (init_procs [5, 0, 2])).1 ((1 : Nat) : Int) =
      rd (init_procs [5, 0, 2]) ((1 : Nat) : Int) :=
  ⟨by decide, by decide, by decide, by decide,
    (fcfs_run_skips_zero (init_procs [5, 0, 2]) 1 (by decide) (by decide)).1⟩

/-- C18: throughout a run on the fresh table of non-negative bursts `b`, at
every step of `fcfs_run` and at every `run_proc` call made by `rr_run` with
`q > 0`, each record keeps `burst_left ≥ 0` and `wait ≥ 0`, no `burst_left`
increases, and the `pid` of every record and the length of the table stay
what they were. -/
theorem run_invariants (b : List Int) (hb : ∀ x ∈ b, 0 ≤ x) :
    (∀ k : Nat, k < b.length →
      RunInv b (fcfs_after k (init_procs b)).1 ∧
      RunInv b (fcfs_after (k + 1) (init_procs b)).1 ∧
      ∀ j : Nat, j < b.length →
        (rd (fcfs_after (k + 1) (init_procs b)).1 (j : Int)).burst_left ≤
          (rd (fcfs_after k (init_procs b)).1 (j : Int)).burst_left) ∧
    (∀ (q : Int) (k : Nat) (s : RRState), 0 < q →
      rr_iter q k ⟨init_procs b, 0, 0⟩ = some s →
        RunInv b s.procs ∧
        ∀ s' : RRState, rr_step q s = some s' →
          RunInv b s'.procs ∧
          ∀ j : Nat, j < b.length →
            (rd s'.procs (j : Int)).burst_left ≤ (rd s.procs (j : Int)).burst_left) := by
  constructor
  · intro k hk
    obtain ⟨h1, h2⟩ := fcfs_after_inv b hb k (by omega)
    have h3 := fcfs_after_inv b hb (k + 1) (by omega)
    refine ⟨h1, h3.1, ?_⟩
    rw [fcfs_after_succ]
    exact (fcfs_body_inv b (fcfs_after k (init_procs b)).1 (fcfs_after k (init_procs b)).2 k
      (by rw [h1.1]; exact hk) h1 h2).2.2
  · intro q k s hq hreach
    have hstepInv : ∀ s s' : RRState, RRGood s → RunInv b s.procs → rr_step q s = some s' →
        RunInv b s'.procs ∧ ∀ j : Nat, j < b.length →
          (rd s'.procs (j : Int)).burst_left ≤ (rd s.procs (j : Int)).burst_left := by
      intro s s' hg hp hs
      obtain ⟨_, _, r, a, hr, ha1, ha2, _, _, _, hpr, _, _, _⟩ := rr_step_good q hq s s' hg hs
      rw [hpr]
      exact run_proc_inv b s.procs r a hr ha1 ha2 hp
    obtain ⟨hc, hnn, hp⟩ :=
      rr_iter_inv q hq (fun s => RunInv b s.procs) (fun s s' hg hp hs => (hstepInv s s' hg hp hs).1)
        k ⟨init_procs b, 0, 0⟩ s (by simp only; omega) (init_procs_getD_burst_nonneg b hb)
        (init_procs_runInv b hb) hreach
    refine ⟨hp, ?_⟩
    intro s' hs
    exact hstepInv s s' (rr_step_some_good q s s' hc hnn hs) hp hs

/-- Witness of C18 on the bursts `[5, 8, 2]`: the invariant holds after the
first step of `fcfs_run`. -/
theorem run_invariants_witness :
    (∀ x ∈ ([5, 8, 2] : List Int), 0 ≤ x) ∧ 0 < ([5, 8, 2] : List Int).length ∧
    RunInv [5, 8, 2] (fcfs_after (0 + 1) (init_procs [5, 8, 2])).1 ∧
    (fcfs_after (0 + 1) (init_procs [5, 8, 2])).1.map (fun p => (p.pid, p.burst_left, p.wait)) =
      [(0, 0, 0), (1, 8, 0), (2, 2, 0)] :=
  ⟨by decide, by decide, ((run_invariants [5, 8, 2] (by decide)).1 0 (by decide)).2.1,
    by decide⟩

/-- C19: in `rr_run` with a quantum `q > 0` on a table of non-negative
bursts, every call of `run_proc` is made at a position `c` inside the table
with the amount `a = min (burst_left[c]) q`, so that `1 ≤ a ≤ burst_left[c]`:
the guard `burst_left[c] > 0` of `run_proc` holds, the subtraction does not go
below 0 (the clamp is not taken), and the amount `a` credited to the wait of
every other record with positive burst is the amount by which the burst of `c`
and the total remaining burst go down. -/
theorem rr_run_amount_preclamped (procs : List Pcb) (hnn : ∀ p ∈ procs, 0 ≤ p.burst_left)
    (q : Int) (hq : 0 < q) (k : Nat) (s s' : RRState)
    (hreach : rr_iter q k ⟨procs, 0, 0⟩ = some s) (hstep : rr_step q s = some s') :
    ∃ (c : Nat) (a : Int), c < s.procs.length ∧ rr_next s.current s.procs = (c : Int) ∧
      s'.procs = run_proc s.procs (c : Int) a ∧
      a = min (rd s.procs (c : Int)).burst_left q ∧
      1 ≤ a ∧ a ≤ (rd s.procs (c : Int)).burst_left ∧
      (rd s.procs (c : Int)).burst_left > 0 ∧
      ¬ (rd s.procs (c : Int)).burst_left - a < 0 ∧
      (rd s'.procs (c : Int)).burst_left = (rd s.procs (c : Int)).burst_left - a ∧
      remaining s'.procs = remaining s.procs - a ∧
      ∀ i : Nat, i < s.procs.length → i ≠ c → (rd s.procs (i : Int)).burst_left > 0 →
        (rd s'.procs (i : Int)).wait = (rd s.procs (i : Int)).wait + a := by
  obtain ⟨hc, hnn', _⟩ :=
    rr_iter_inv q hq (fun _ => True) (fun _ _ _ _ _ => trivial)
      k ⟨procs, 0, 0⟩ s (by simp only; omega) (getD_burst_nonneg_of_mem procs hnn) trivial hreach
  have hg := rr_step_some_good q s s' hc hnn' hstep
  obtain ⟨_, _, r, a, hr, ha1, ha2, ha3, hnext, hrt, hpr, _, _, hrem⟩ :=
    rr_step_good q hq s s' hg hstep
  have hpos : (s.procs.getD r Pcb.zero).burst_left > 0 := by omega
  refine ⟨r, a, hr, hnext, hpr, ?_, ha1, ?_, ?_, ?_, ?_, hrem, ?_⟩
  · rw [rd_natCast, hrt]
    unfold run_time
    split_ifs <;> omega
  · rw [rd_natCast]; exact ha2
  · rw [rd_natCast]; exact hpos
  · rw [rd_natCast]; omega
  · rw [rd_natCast, rd_natCast, hpr, run_proc_getD s.procs r hr a hpos]
    simp only [if_true]
    omega
  · intro i _ hir hi
    rw [rd_natCast] at hi
    rw [rd_natCast, rd_natCast, hpr, run_proc_getD s.procs r hr a hpos]
    simp only [if_neg hir, hi, if_true]

/-- Witness of C19: the first iteration of `rr_run` on the bursts `[5, 8, 2]`
with quantum 4, which runs position 1 for 4. -/
theorem rr_run_amount_preclamped_witness :
    (∀ p ∈ init_procs [5, 8, 2], 0 ≤ p.burst_left) ∧ (0 : Int) < 4 ∧
    rr_iter 4 0 ⟨init_procs [5, 8, 2], 0, 0⟩ = some ⟨init_procs [5, 8, 2], 0, 0⟩ ∧
    rr_step 4 ⟨init_procs [5, 8, 2], 0, 0⟩ =
      some ⟨run_proc (init_procs [5, 8, 2]) 1 4, 1, 4⟩ ∧
    ∃ (c : Nat) (a : Int), c < (init_procs [5, 8, 2]).length ∧
      rr_next 0 (init_procs [5, 8, 2]) = (c : Int) ∧
      run_proc (init_procs [5, 8, 2]) 1 4 = run_proc (init_procs [5, 8, 2]) (c : Int) a ∧
      a = min (rd (init_procs [5, 8, 2]) (c : Int)).burst_left 4 ∧ 1 ≤ a :=
  ⟨by decide, by decide, by decide, by decide,
    by
      obtain ⟨c, a, h1, h2, h3, h4, h5, _⟩ :=
        rr_run_amount_preclamped (init_procs [5, 8, 2]) (by decide) 4 (by decide) 0
          ⟨init_procs [5, 8, 2], 0, 0⟩ ⟨run_proc (init_procs [5, 8, 2]) 1 4, 1, 4⟩
          (by decide) (by decide)
      exact ⟨c, a, h1, h2, h3, h4, h5⟩⟩

/-- C20 as stated fails for a quantum below 0 once `int` is 32 bits wide: on
the table of the single burst 5 with quantum `-2147483647`, the first
iteration computes `5 + 2147483647`, which wraps below 0 and is clamped to 0,
so the total remaining burst drops from 5 to 0 and `rr_run` returns at its
second iteration; it returns on the bursts `[5, 8, 2]` as well, at its fourth
iteration. -/
theorem rr_run32_negative_quantum_returns :
    (∃ p ∈ init_procs [5], p.burst_left > 0) ∧ (-2147483647 : Int) ≤ 0 ∧
    InInt32 (-2147483647) ∧
    rr_run32 2 (init_procs [5]) (-2147483647) = some ([⟨0, 0, 0⟩], -2147483647) ∧
    remaining [⟨0, 0, 0⟩] < remaining (init_procs [5]) ∧
    (rr_run32 4 (init_procs [5, 8, 2]) (-2147483647)).map
        (fun r => (r.1.map (fun p => (p.burst_left, p.wait)), r.2)) =
      some ([(0, 2), (0, 0), (0, -2147483647)], -2147483645) := by
  decide

/-- C20, amended: `rr_run` does not validate its quantum.  On every table of
`int` values with a record of positive burst: with the quantum 0 every
iteration of the loop selects a process and leaves the table and the total
unchanged, so `rr_run` never returns; with a quantum `q < 0` every iteration
selects a record `c` of positive burst and calls `run_proc` with the amount
`q`, and as long as `burst_left[c] - q` and `wait[i] + q` stay within `int`,
`burst_left[c]` grows by `-q`, the total remaining burst does not decrease,
and the wait of every other record of positive burst decreases by `-q`. -/
theorem rr_run32_nonpos_quantum (procs : List Pcb)
    (hex : ∃ p ∈ procs, p.burst_left > 0)
    (hr : ∀ p ∈ procs, InInt32 p.burst_left ∧ InInt32 p.wait) :
    (∀ fuel : Nat, rr_run32 fuel procs 0 = none) ∧
    (∀ s : RRState, -1 ≤ s.current → (∃ p ∈ s.procs, p.burst_left > 0) →
      (∀ p ∈ s.procs, InInt32 p.burst_left ∧ InInt32 p.wait) → InInt32 s.total_time →
      ∃ s' : RRState, rr_step32 0 s = some s' ∧ s'.procs = s.procs ∧
        s'.total_time = s.total_time) ∧
    (∀ (q : Int) (s : RRState), q < 0 → -1 ≤ s.current →
      (∃ p ∈ s.procs, p.burst_left > 0) →
      ∃ (c : Nat) (s' : RRState), c < s.procs.length ∧
        rr_next s.current s.procs = (c : Int) ∧ (rd s.procs (c : Int)).burst_left > 0 ∧
        rr_step32 q s = some s' ∧ s'.current = (c : Int) ∧
        s'.procs = run_proc32 s.procs (c : Int) q ∧
        ((rd s.procs (c : Int)).burst_left - q ≤ 2147483647 →
          (rd s'.procs (c : Int)).burst_left = (rd s.procs (c : Int)).burst_left - q ∧
          (rd s.procs (c : Int)).burst_left < (rd s'.procs (c : Int)).burst_left ∧
          remaining s.procs ≤ remaining s'.procs) ∧
        ∀ i : Nat, i < s.procs.length → i ≠ c → (rd s.procs (i : Int)).burst_left > 0 →
          InInt32 ((rd s.procs (i : Int)).wait + q) →
            (rd s'.procs (i : Int)).wait = (rd s.procs (i : Int)).wait + q ∧
            (rd s'.procs (i : Int)).wait < (rd s.procs (i : Int)).wait) := by
  refine ⟨?_, ?_, ?_⟩
  · intro fuel
    exact rr_loop32_zero fuel ⟨procs, 0, 0⟩ (by simp only; omega) hex hr
      ⟨by simp only; omega, by simp only; omega⟩
  · intro s hc hex' hr' ht
    obtain ⟨r, _, _, hstep⟩ := rr_step32_zero s hc hex' hr' ht
    exact ⟨_, hstep, rfl, rfl⟩
  · intro q s hq hc hex'
    obtain ⟨r, hr1, hr2, hr3, hstep⟩ := rr_step32_nonpos q (by omega) s hc hex'
    have hget := run_proc32_getD s.procs r hr1 q hr2
    refine ⟨r, _, hr1, hr3, by rw [rd_natCast]; exact hr2, hstep, rfl, rfl, ?_, ?_⟩
    · intro hfit
      rw [rd_natCast] at hfit
      have hw : wrap32 ((s.procs.getD r Pcb.zero).burst_left - q) =
          (s.procs.getD r Pcb.zero).burst_left - q :=
        wrap32_of_inInt32 _ ⟨by omega, hfit⟩
      have hmax : max ((s.procs.getD r Pcb.zero).burst_left - q) 0 =
          (s.procs.getD r Pcb.zero).burst_left - q := by omega
      refine ⟨?_, ?_, ?_⟩
      · rw [rd_natCast, rd_natCast, hget]
        simp only [if_true, hw, hmax]
      · rw [rd_natCast, rd_natCast, hget]
        simp only [if_true, hw, hmax]
        omega
      · simp only [remaining_run_proc32 s.procs r hr1 q hr2, hw, hmax]
        omega
    · intro i _ hir hi hfit
      rw [rd_natCast] at hi hfit
      rw [rd_natCast, rd_natCast, hget]
      simp only [if_neg hir, hi, if_true, wrap32_of_inInt32 _ hfit]
      exact ⟨trivial, by omega⟩

/-- Witness of amended C20 on the table of the bursts `[5, 8, 2]` with
quantum 0: `rr_run` has not returned after 100 iterations. -/
theorem rr_run32_nonpos_quantum_witness :
    (∃ p ∈ init_procs [5, 8, 2], p.burst_left > 0) ∧
    (∀ p ∈ init_procs [5, 8, 2], InInt32 p.burst_left ∧ InInt32 p.wait) ∧
    rr_run32 100 (init_procs [5, 8, 2]) 0 = none :=
  ⟨by decide, by decide,
    (rr_run32_nonpos_quantum (init_procs [5, 8, 2]) (by decide) (by decide)).1 100⟩

end Parta
